import Mathlib

/-!
Shallow embedding of the fakedoc generation engine (`pkg/fakedoc`):
the grammar Template, the Limits tree, the namespace ledger with
snapshot/rollback, the recursive generator (`generateNode` and the
per-variant generators), the reference fixup pass, and the regular
expression feature check and sampler.

Randomness model: Go's seeded `*rand.Rand` is an external collaborator;
it is modelled as a stream of abstract draws (`Nat → Nat`) with a cursor.
`IntN n` consumes one draw `e` and yields `e % n`; it has no defined
result for `n ≤ 0` (the Go implementation panics), which the embedding
returns as `none`.  `Shuffle`/`Perm` are modelled as a rotation
determined by one draw (any concrete deterministic permutation family is
a faithful model of the external generator's contract).  Wall-clock
reads (`time.Now()` in `randomDateTime`) and file contents (`os.Open`
in `book`) are explicit external inputs of the configuration.
-/

namespace Fakedoc

/-- Cursor into an abstract stream of random draws (models `*rand.Rand`). -/
structure Rng where
  stream : Nat → Nat
  pos : Nat

/-- Consume one raw draw. -/
def Rng.next (r : Rng) : Nat × Rng :=
  (r.stream r.pos, { r with pos := r.pos + 1 })

/-- Go `rand.IntN n`: uniform in `[0, n)`; panics (here `none`) for `n ≤ 0`. -/
def Rng.intN (r : Rng) (n : Int) : Option (Nat × Rng) :=
  if n ≤ 0 then none
  else
    let (e, r') := r.next
    some (e % n.toNat, r')

/-- Go `choose(rand, choices)`: uniform element of a non-empty slice.
The Go code panics on an empty slice (`IntN 0`); every generator call
site guards non-emptiness, and the embedding returns `default` there. -/
def chooseGo [Inhabited α] (r : Rng) (l : List α) : α × Rng :=
  let (e, r') := r.next
  (l.getD (e % l.length) default, r')

/-- One-draw model of Go `rand.Perm n`: a permutation of `0..n-1`
(a rotation selected by the draw). -/
def permGo (r : Rng) (n : Nat) : List Nat × Rng :=
  let (e, r') := r.next
  let k := e % (max 1 n)
  ((List.range n).drop k ++ (List.range n).take k, r')

/-- Go `chooseK(rand, k, choices)`: `k` elements of `choices` at the
first `k` positions of a random permutation of all indices. -/
def chooseKGo (r : Rng) (k : Nat) (choices : List String) : List String × Rng :=
  let (perm, r') := permGo r choices.length
  ((perm.take k).map (fun i => choices.getD i ""), r')

/-- One-draw model of Go `rand.Shuffle` as used by `shuffle`:
a rotation of the list selected by the draw. -/
def shuffleGo (r : Rng) (l : List α) : List α × Rng :=
  let (e, r') := r.next
  let k := e % (max 1 l.length)
  (l.drop k ++ l.take k, r')

/-! ## Limits (`limits.go`) -/

/-- One entry of a limits path (`PathEntry`). -/
structure PathEntry where
  Name : String
  Array : Bool
  Recursive : Bool
  deriving DecidableEq, Repr

/-- A limits path (`Path`). -/
def LPath := List PathEntry

/-- A length limit together with the paths it applies to (`LengthPaths`). -/
structure LengthPaths where
  Length : Int
  Paths : List (List PathEntry)
  deriving Repr

/-- The limits file contents used by the generator (`Limits.ArrayLength`). -/
structure Limits where
  ArrayLength : List LengthPaths
  deriving Repr

/-- A node of the limits tree (`LimitNode`); Go's nil node is `none`
at use sites (`Descend`/`GetLimit` accept nil receivers). -/
inductive LimitTree where
  | mk (Limit : Int) (Branches : List (String × LimitTree))
  deriving Repr

/-- Limit stored at a node (`LimitNode.Limit`). -/
def LimitTree.limit : LimitTree → Int
  | .mk l _ => l

/-- Branches of a node (`LimitNode.Branches`). -/
def LimitTree.branches : LimitTree → List (String × LimitTree)
  | .mk _ b => b

/-- Association list lookup (Go map read, `nil` when absent). -/
def alookup (l : List (String × α)) (k : String) : Option α :=
  match l with
  | [] => none
  | (k', v) :: rest => if k' = k then some v else alookup rest k

/-- Association list insert-or-replace (Go map write). -/
def aset (l : List (String × α)) (k : String) (v : α) : List (String × α) :=
  match l with
  | [] => [(k, v)]
  | (k', v') :: rest => if k' = k then (k, v) :: rest else (k', v') :: aset rest k v

/-- `LimitNode.Descend`: child for a segment, nil-safe. -/
def descendL : Option LimitTree → String → Option LimitTree
  | none, _ => none
  | some t, name => alookup t.branches name

/-- `LimitNode.GetLimit`: limit of a node, 0 for nil. -/
def getLimitL : Option LimitTree → Int
  | none => 0
  | some t => t.limit

/-- `LimitNode.insert`: store a limit at the end of a path, creating
intermediate nodes. -/
def insertL (t : LimitTree) (path : List PathEntry) (limit : Int) : LimitTree :=
  match path with
  | [] => .mk limit t.branches
  | p :: rest =>
    let child := match alookup t.branches p.Name with
      | some c => c
      | none => .mk 0 []
    .mk t.limit (aset t.branches p.Name (insertL child rest limit))
termination_by path.length

/-- `Limits.ArrayLimits`: build the array-limits tree; nil limits give
an empty tree. -/
def arrayLimits (lim : Option Limits) : LimitTree :=
  match lim with
  | none => .mk 0 []
  | some l =>
    l.ArrayLength.foldl
      (fun t lp => lp.Paths.foldl (fun t path => insertL t path lp.Length) t)
      (.mk 0 [])

/-! ## Regular expression patterns (`regexp.go`) — AST and feature check

`syntax.Parse` is the external parser; the embedding works on the
parsed AST (`*syntax.Regexp`), restricted to the operators the
repository's checker and sampler mention. -/

/-- The `regexp/syntax` operator tags relevant to `checkAst`. -/
inductive ROp where
  | alternate | anyCharNotNL | beginText | capture | charClass | concat
  | emptyMatch | endText | literal | plus | quest | repeatOp | star
  | wordBoundary | noWordBoundary | anyChar
  deriving DecidableEq, Repr

/-- A parsed regular expression AST (`*syntax.Regexp`), with the
fields each operator uses: `Sub` subtrees, `Rune` code-point ranges
for character classes (pairs of inclusive bounds) or literal text,
and `Min`/`Max` for bounded repeats (`Max = -1` when unbounded). -/
inductive Rx where
  | alternate (sub : List Rx)
  | anyCharNotNL
  | beginText
  | capture (sub : Rx)
  | charClass (runes : List (Nat × Nat))
  | concat (sub : List Rx)
  | emptyMatch
  | endText
  | literal (runes : List Nat)
  | plus (sub : Rx)
  | quest (sub : Rx)
  | repeatOp (min max : Int) (sub : Rx)
  | star (sub : Rx)
  | wordBoundary
  | noWordBoundary
  | anyChar

/-- Operator tag of an AST node (`ast.Op`). -/
def Rx.op : Rx → ROp
  | .alternate _ => .alternate
  | .anyCharNotNL => .anyCharNotNL
  | .beginText => .beginText
  | .capture _ => .capture
  | .charClass _ => .charClass
  | .concat _ => .concat
  | .emptyMatch => .emptyMatch
  | .endText => .endText
  | .literal _ => .literal
  | .plus _ => .plus
  | .quest _ => .quest
  | .repeatOp _ _ _ => .repeatOp
  | .star _ => .star
  | .wordBoundary => .wordBoundary
  | .noWordBoundary => .noWordBoundary
  | .anyChar => .anyChar

/-- The `supportedOps` set of `regexp.go`. -/
def supportedOps : List ROp :=
  [.alternate, .anyCharNotNL, .beginText, .capture, .charClass, .concat,
   .emptyMatch, .endText, .literal, .plus, .quest, .repeatOp, .star]

/-- Insert into the `ops` set (Go `(*ops)[ast.Op] = nil`). -/
def opsInsert (ops : List ROp) (o : ROp) : List ROp :=
  if o ∈ ops then ops else ops ++ [o]

mutual
/-- `checkAstNode`: records the node's operator in `ops` and recurses
into subtrees.  Faithful to the source: the `error` results of the
recursive calls are discarded (the Go code does not check them); only
an empty character class at the node itself produces an error. -/
def checkAstNode (ast : Rx) (ops : List ROp) : List ROp × Option String :=
  let ops := opsInsert ops ast.op
  match ast with
  | .alternate sub | .concat sub =>
    (checkAstList sub ops, none)
  | .capture s | .plus s | .quest s | .repeatOp _ _ s | .star s =>
    ((checkAstNode s ops).1, none)
  | .charClass runes =>
    if runes.length = 0 then (ops, some "character class without valid matches")
    else (ops, none)
  | _ => (ops, none)

/-- The subtree loop of `checkAstNode` for `OpAlternate`/`OpConcat`
(the per-child error is dropped, the `ops` pointer mutation persists). -/
def checkAstList (sub : List Rx) (ops : List ROp) : List ROp :=
  match sub with
  | [] => ops
  | s :: rest => checkAstList rest (checkAstNode s ops).1
end

/-- `checkAst`: run `checkAstNode` from an empty set, then reject any
operator outside `supportedOps`.  Returns `none` when the AST passes
(and `CompileRegexp` succeeds on the parsed pattern). -/
def checkAst (ast : Rx) : Option String :=
  let (ops, err) := checkAstNode ast []
  match err with
  | some e => some e
  | none =>
    let unsupported := ops.filter (fun o => ¬ o ∈ supportedOps)
    if unsupported.length > 0 then some "unsupported regexp operations"
    else none

/-! ## Pattern sampling (`regexp.go`) -/

/-- `chooseRange low high`: the repetition count used by the sampler.
A negative `high` (no upper bound in the regex) becomes `low + 10`;
a positive span draws uniformly, otherwise the count is `low + length`
(no draw). -/
def chooseRange (low high : Int) (r : Rng) : Int × Rng :=
  let high := if high < 0 then low + 10 else high
  let length := high - low
  if length > 0 then
    match r.intN (length + 1) with
    | some (e, r') => (low + e, r')
    | none => (low, r)
  else (low + length, r)

/-- `chooseCharClass`: uniform code point over the class's ranges,
weighted by range sizes; `none` models the Go panic (`IntN 0`) on an
empty class. -/
def chooseCharClass (runes : List (Nat × Nat)) (r : Rng) : Option (Nat × Rng) :=
  let count : Int := runes.foldl (fun acc p => acc + (p.2 - p.1 + 1 : Int)) 0
  match r.intN count with
  | none => none
  | some (choice, r') =>
    let rec pick (rs : List (Nat × Nat)) (c : Nat) : Nat :=
      match rs with
      | [] => 0
      | (lo, hi) :: rest =>
        if c < hi - lo + 1 then lo + c else pick rest (c - (hi - lo + 1))
    some (pick runes choice, r')

/-- Sampler state: the random source and the output buffer
(`sampler.rand`, `sampler.buf`). -/
structure SamplerSt where
  rand : Rng
  buf : String

mutual
/-- `sampleAstNode`: emit a random match for one AST node.  `none`
models the Go panic reachable through `chooseCharClass` on an empty
class. -/
def sampleAstNode (ast : Rx) (s : SamplerSt) : Option SamplerSt :=
  match ast with
  | .alternate sub =>
    let (e, r') := s.rand.next
    match h : sub[e % sub.length]? with
    | some branch => sampleAstNode branch { s with rand := r' }
    | none => some { s with rand := r' }
  | .anyCharNotNL =>
    match chooseCharClass [(32, 126)] s.rand with
    | some (c, r') => some { rand := r', buf := s.buf.push (Char.ofNat c) }
    | none => none
  | .beginText => some s
  | .capture sub => sampleAstNode sub s
  | .charClass runes =>
    match chooseCharClass runes s.rand with
    | some (c, r') => some { rand := r', buf := s.buf.push (Char.ofNat c) }
    | none => none
  | .concat sub => sampleList sub s
  | .emptyMatch => some s
  | .endText => some s
  | .literal runes =>
    some { s with buf := s.buf ++ String.mk (runes.map Char.ofNat) }
  | .plus sub =>
    let (n, r') := chooseRange 1 10 s.rand
    repeatRx sub n.toNat { s with rand := r' }
  | .quest sub =>
    let (e, r') := s.rand.next
    if e % 2 > 0 then sampleAstNode sub { s with rand := r' }
    else some { s with rand := r' }
  | .repeatOp mn mx sub =>
    let (n, r') := chooseRange mn mx s.rand
    repeatRx sub n.toNat { s with rand := r' }
  | .star sub =>
    let (n, r') := chooseRange 0 10 s.rand
    repeatRx sub n.toNat { s with rand := r' }
  | _ => some s
termination_by (sizeOf ast, 0)
decreasing_by
  all_goals simp_wf
  · apply Prod.Lex.left
    rw [List.getElem?_eq_some] at h
    obtain ⟨hi, rfl⟩ := h
    have := List.sizeOf_lt_of_mem (List.getElem_mem (l := sub) hi)
    omega
  all_goals (apply Prod.Lex.left; omega)

/-- The `OpConcat` loop of `sampleAstNode`. -/
def sampleList (sub : List Rx) (s : SamplerSt) : Option SamplerSt :=
  match sub with
  | [] => some s
  | x :: rest =>
    match sampleAstNode x s with
    | some s' => sampleList rest s'
    | none => none
termination_by (sizeOf sub, 0)
decreasing_by
  all_goals simp_wf
  all_goals (apply Prod.Lex.left; omega)

/-- `sampler.repeat`: sample a subtree `count` times. -/
def repeatRx (ast : Rx) (count : Nat) (s : SamplerSt) : Option SamplerSt :=
  match count with
  | 0 => some s
  | n + 1 =>
    match sampleAstNode ast s with
    | some s' => repeatRx ast n s'
    | none => none
termination_by (sizeOf ast, count + 1)
decreasing_by
  all_goals simp_wf
  · apply Prod.Lex.right; omega
  · apply Prod.Lex.right.{0, 0}
    omega
end

/-! ## Template data model (`template.go`) -/

/-- `LoremUnit` ("words"/"sentences"/"paragraphs"). -/
inductive LoremUnit where
  | words | sentences | paragraphs
  deriving DecidableEq, Repr

/-- One of an object's properties (`Property`). -/
structure PropertyT where
  Name : String
  Type' : String
  Required : Bool
  deriving DecidableEq, Repr

/-- A template node (`TmplNode` with its concrete variants `TmplObject`,
`TmplArray`, `TmplOneOf`, `TmplString`, `TmplLorem`, `TmplBook`,
`TmplID`, `TmplRef`, `TmplNumber`, `TmplDateTime`).  Numbers keep their
bounds as rationals (Go `*float32`), date/times as integer nanoseconds
(Go `*time.Time`); `-1` encodes "no limit" in the int bounds. -/
inductive Tmpl where
  | object (Properties : List PropertyT) (MinProperties MaxProperties : Int)
  | array (Items : String) (MinItems MaxItems : Int) (UniqueItems : Bool)
  | oneOf (OneOf : List String)
  | str (MinLength MaxLength : Int) (Enum : List String) (Pattern : Option Rx)
  | lorem (MinLength MaxLength : Int) (Unit : LoremUnit)
  | book (MinLength MaxLength : Int) (Path : String)
  | id (Namespace : String)
  | ref (Namespace : String)
  | number (Minimum Maximum : Option ℚ)
  | datetime (Minimum Maximum : Option Int)

/-- The template (`Template`): type-name → node map plus root name. -/
structure Template where
  Types : List (String × Tmpl)
  Root : String

/-! ## Generator state (`generator.go`) -/

/-- Error values of the generator.  `branchAbandoned`-derived errors
(`ErrDepthExceeded`, `ErrNoValidValue`, the per-namespace "no IDs"
error) are the abandon class; everything else is fatal.  `panics`
models a Go runtime panic (`rand.IntN` with a non-positive argument). -/
inductive GErr where
  | depthExceeded
  | noValidValue
  | noIDs (ns : String)
  | unknownType (name : String)
  | cannotGenerateOneOf
  | insufficientProperties (minProps : Int)
  | unexpectedNodeType
  | fixupNoIDs (ns : String)
  | fileError (path : String)
  | invalidString
  | panics
  deriving DecidableEq, Repr

/-- Go `errors.Is(err, ErrBranchAbandoned)`. -/
def GErr.isAbandoned : GErr → Bool
  | .depthExceeded => true
  | .noValidValue => true
  | .noIDs _ => true
  | _ => false

/-- Go `errors.Is(err, ErrNoValidValue)`. -/
def GErr.isNoValidValue : GErr → Bool
  | .noValidValue => true
  | _ => false

/-- A namespace ledger entry (`NameSpace`): produced identifier values
and the ids of the registered reference placeholders (Go stores
`[]*reference`; the embedding stores indices into the cell arena). -/
structure NameSpace where
  Values : List String
  Refs : List Nat
  deriving DecidableEq, Repr

/-- A reference placeholder (`reference`): its namespace and arity
(`Length < 0` single value, `0` empty, `n ≥ 1` an `n`-element array).
Its `Values` field stays unset until fixup, which the embedding returns
as a separate table. -/
structure RefCell where
  Namespace : String
  Length : Int
  deriving DecidableEq, Repr

/-- The mutable generator state: random source, namespace ledger
(`Generator.NameSpaces`), the arena of reference cells created so far,
and the file cache (`Generator.FileCache`). -/
structure GenState where
  rng : Rng
  nameSpaces : List (String × NameSpace)
  refCells : List RefCell
  fileCache : List (String × String)

/-- `getNamespace`: read a namespace, creating an empty entry if absent
(a state-mutating read, as in the source). -/
def getNamespace (st : GenState) (ns : String) : NameSpace × GenState :=
  match alookup st.nameSpaces ns with
  | some e => (e, st)
  | none => (⟨[], []⟩, { st with nameSpaces := st.nameSpaces ++ [(ns, ⟨[], []⟩)] })

/-- `addNSValue`: append an identifier value to a namespace. -/
def addNSValue (st : GenState) (ns v : String) : GenState :=
  let (e, st) := getNamespace st ns
  { st with nameSpaces := aset st.nameSpaces ns { e with Values := e.Values ++ [v] } }

/-- `adNSRef`: append a reference placeholder to a namespace. -/
def adNSRef (st : GenState) (ns : String) (refId : Nat) : GenState :=
  let (e, st) := getNamespace st ns
  { st with nameSpaces := aset st.nameSpaces ns { e with Refs := e.Refs ++ [refId] } }

/-- `hasNSValues`. -/
def hasNSValues (st : GenState) (ns : String) : Bool × GenState :=
  let (e, st) := getNamespace st ns
  (e.Values.length > 0, st)

/-- `numNSValues`. -/
def numNSValues (st : GenState) (ns : String) : Nat × GenState :=
  let (e, st) := getNamespace st ns
  (e.Values.length, st)

/-- Allocate a fresh reference cell; its id is its arena index. -/
def newRefCell (st : GenState) (ns : String) (len : Int) : Nat × GenState :=
  (st.refCells.length, { st with refCells := st.refCells ++ [⟨ns, len⟩] })

/-- A generated value tree.  `ref i` is the opaque handle for reference
cell `i` (Go: a `*reference` whose `Values` are filled in by fixup).
Objects are Go maps built with `aset`; numbers and date/times carry the
sampled quantity. -/
inductive Value where
  | str (s : String)
  | num (q : ℚ)
  | datetime (t : Int)
  | arr (items : List Value)
  | obj (fields : List (String × Value))
  | ref (i : Nat)

/-- True when every key of `a` is a key of `b`. -/
def keysSubset (a b : List (String × Value)) : Bool :=
  a.all (fun kv => (alookup b kv.1).isSome)

mutual
/-- Go `reflect.DeepEqual` on generated values as used by the
uniqueness check (via `itemHasher`/`demap`): strings/numbers/date-times
by value, arrays elementwise, objects as maps (key order irrelevant;
`demap` sorts keys before hashing), and unresolved `*reference`
handles by their pointee — namespace and arity, `Values` being unset
for every cell before fixup. -/
def deepEqualGo (cells : List RefCell) (v w : Value) : Bool :=
  match v, w with
  | .str a, .str b => a = b
  | .num a, .num b => a = b
  | .datetime a, .datetime b => a = b
  | .arr a, .arr b => deepEqualList cells a b
  | .obj a, .obj b => keysSubset a b && keysSubset b a && deepEqualFields cells a b
  | .ref i, .ref j =>
    (match cells[i]?, cells[j]? with
     | some c, some d => c = d
     | _, _ => i = j)
  | _, _ => false

/-- Elementwise `DeepEqual` on slices. -/
def deepEqualList (cells : List RefCell) (a b : List Value) : Bool :=
  match a, b with
  | [], [] => true
  | x :: xs, y :: ys => deepEqualGo cells x y && deepEqualList cells xs ys
  | _, _ => false

/-- Per-key `DeepEqual` on maps (keys of `a` looked up in `b`). -/
def deepEqualFields (cells : List RefCell) (a b : List (String × Value)) : Bool :=
  match a with
  | [] => true
  | (k, x) :: rest =>
    (match alookup b k with
     | some y => deepEqualGo cells x y
     | none => false) && deepEqualFields cells rest b
end

/-! ## Leaf generators (`generator.go`) -/

/-- The character set of `randomString`. -/
def goChars : List Char :=
  " abcdefghijklmnopqrstuvwxyzABCDEFGHIJKLMNOPQRSTUVWXYZ0123456789".toList

/-- The character loop of `randomString`: one uniform choice per
position. -/
def randomCharList : Nat → Rng → List Char × Rng
  | 0, r => ([], r)
  | n + 1, r =>
    let (c, r') := chooseGo r goChars
    let (rest, r'') := randomCharList n r'
    (c :: rest, r'')

/-- `randomString minlength maxlength`: negative `minlength` is clamped
to 0, negative `maxlength` becomes `minlength + 10`; the length is
drawn with `IntN (maxlength - minlength + 1)` — an inclusive range.
The draw panics (`.panics`) when the adjusted bounds are inverted. -/
def randomString (min max : Int) (st : GenState) : Except GErr String × GenState :=
  let minlength := if min < 0 then 0 else min
  let maxlength := if max < 0 then minlength + 10 else max
  match st.rng.intN (maxlength - minlength + 1) with
  | none => (.error .panics, st)
  | some (d, r') =>
    let length := minlength.toNat + d
    let (cs, r'') := randomCharList length r'
    (.ok (String.mk cs), { st with rng := r'' })

/-- Modelled from the spec: the external lorem-ipsum word generator
(`github.com/go-loremipsum/loremipsum`, out of scope per §1) is "an
external lorem-ipsum word generator … used only as leaf-value
provider"; any deterministic function of seed, unit and length is a
faithful stand-in. -/
def loremText (seed : Nat) (unit : LoremUnit) (length : Nat) : String :=
  let word :=
    match unit with
    | .words => "lorem"
    | .sentences => "Lorem ipsum."
    | .paragraphs => "Lorem ipsum dolor."
  String.intercalate " " (List.replicate length (word ++ toString (seed % 2)))

/-- `loremIpsum`: clamps bounds like `randomString` but draws the
length with `IntN (maxlength - minlength)` — no `+ 1` — so equal
bounds panic; then seeds the external provider from the random
source (`gen.Rand.Int64()`, one draw). -/
def loremIpsum (min max : Int) (unit : LoremUnit) (st : GenState) :
    Except GErr String × GenState :=
  let minlength := if min < 0 then 0 else min
  let maxlength := if max < 0 then minlength + 10 else max
  match st.rng.intN (maxlength - minlength) with
  | none => (.error .panics, st)
  | some (d, r') =>
    let length := minlength.toNat + d
    let (seed, r'') := r'.next
    (.ok (loremText seed unit length), { st with rng := r'' })

/-- `book`: clamps bounds, draws the length with
`IntN (maxlength - minlength)` — no `+ 1`, so equal bounds panic —
then reads the file through the cache (the filesystem is the external
input `fs`) and trims to `length` runes.  Lean strings are always
valid UTF-8, so `ErrInvalidString` is unreachable in the model. -/
def bookGo (fs : String → Option String) (min max : Int) (path : String)
    (st : GenState) : Except GErr String × GenState :=
  let minlength := if min < 0 then 0 else min
  let maxlength := if max < 0 then minlength + 10 else max
  match st.rng.intN (maxlength - minlength) with
  | none => (.error .panics, st)
  | some (d, r') =>
    let length := minlength.toNat + d
    let st := { st with rng := r' }
    let (content?, st) :=
      match alookup st.fileCache path with
      | some c => (some c, st)
      | none =>
        match fs path with
        | none => (none, st)
        | some c => (some c, { st with fileCache := aset st.fileCache path c })
    match content? with
    | none => (.error (.fileError path), st)
    | some content =>
      (.ok (String.mk (content.toList.take length)), st)

/-- Exact value of Go `math.MaxFloat32`. -/
def maxFloat32 : ℚ := (2 ^ 24 - 1) * 2 ^ 104

/-- Abstract model of `rand.Float64`: one draw, mapped into `[0, 1)`. -/
def floatFrac (e : Nat) : ℚ := (e % 1000 : Nat) / 1000

/-- `randomNumber`: uniform in the bounds, defaulting to the float32
range. -/
def randomNumber (mn mx : Option ℚ) (st : GenState) : ℚ × GenState :=
  let low := mn.getD (-maxFloat32)
  let high := mx.getD maxFloat32
  let (e, r') := st.rng.next
  (low + floatFrac e * (high - low), { st with rng := r' })

/-- Nanoseconds of the modelled calendar year used by
`AddDate(±1, 0, 0)`. -/
def yearNs : Int := 365 * 24 * 3600 * 1000000000

/-- `randomDateTime`: when both bounds are absent the upper bound is
`time.Now()` — the wall clock `now`, an input outside the random
source — and the lower bound is one year earlier; a single absent
bound is one year from the other.  The result is
`mindate + Duration(Float64() * duration)` (truncating). -/
def randomDateTime (now : Int) (mn mx : Option Int) (st : GenState) :
    Int × GenState :=
  let (mindate, maxdate) :=
    match mn, mx with
    | none, none => (now - yearNs, now)
    | none, some mx' => (mx' - yearNs, mx')
    | some mn', none => (mn', mn' + yearNs)
    | some mn', some mx' => (mn', mx')
  let duration := maxdate - mindate
  let (e, r') := st.rng.next
  (mindate + Int.tdiv (duration * ((e % 1000 : Nat) : Int)) 1000,
   { st with rng := r' })

/-- `generateID`: a random string of length 1–20, registered into the
namespace's value list. -/
def generateID (ns : String) (st : GenState) : Except GErr String × GenState :=
  match randomString 1 20 st with
  | (.ok id, st') => (.ok id, addNSValue st' ns id)
  | (.error e, st') => (.error e, st')

/-- `generateReference`: abandon with the "no IDs in namespace" error
when the namespace has no values (note `hasNSValues` creates the empty
namespace entry); otherwise register a fresh arity `-1` placeholder. -/
def generateReference (ns : String) (st : GenState) : Except GErr Value × GenState :=
  let (has, st) := hasNSValues st ns
  if has then
    let (i, st) := newRefCell st ns (-1)
    (.ok (.ref i), adNSRef st ns i)
  else
    (.error (.noIDs ns), st)

/-! ## The generation engine (`generator.go`) -/

/-- The generator's configuration (`Generator` fields other than the
mutable state) together with the run's external world: the wall clock
`now` read by `randomDateTime`, the filesystem `fs` read by `book`,
and `mapOrder`, the order in which this run's `range` over the
`NameSpaces` Go map visits the entries — `range` visits each entry
exactly once but in unspecified, runtime-randomized order, so the
order is an input of the run, not a function of the seed. -/
structure GenCfg where
  Template : Template
  Limits : Option Limits
  SizeFactor : ℚ
  ForceMaxSize : Bool
  now : Int
  fs : String → Option String
  mapOrder : List (String × NameSpace) → List (String × NameSpace)

/-- Go `int(x)` on a finite float: truncation toward zero. -/
def qTrunc (q : ℚ) : Int := Int.tdiv q.num q.den

/-- A generator for one type name at a fixed recursion depth
(the shape of `generateNode` with `depth` applied). -/
def GenFun := String → Option LimitTree → GenState → Except GErr Value × GenState

/-- `generateItemUntil`: up to `maxAttempts` generations of the item
type; accept the first item satisfying `cond` (a `none` condition
accepts anything), answer `ErrNoValidValue` when attempts run out, and
propagate any generation error — abandon-class included — at once.
`child` is `generateNode` at this call's Go depth−1. -/
def generateItemUntil (child : GenFun) (typename : String)
    (limits : Option LimitTree) (cond : Option (GenState → Value → Bool)) :
    Nat → GenState → Except GErr Value × GenState
  | 0, st => (.error .noValidValue, st)
  | attempts + 1, st =>
    match child typename limits st with
    | (.error e, st') => (.error e, st')
    | (.ok item, st') =>
      match cond with
      | none => (.ok item, st')
      | some c =>
        if c st' item then (.ok item, st')
        else generateItemUntil child typename limits cond attempts st'

/-- The slot loop of `randomArray`: one `generateItemUntil` per slot;
a slot whose attempts end in `ErrNoValidValue` is skipped (shorter
array), other errors propagate.  When `unique` is set the condition
rejects items `DeepEqual` to an already-accepted one. -/
def arrayLoop (itemChild : GenFun) (itemsTy : String)
    (limits : Option LimitTree) (unique : Bool) :
    Nat → List Value → GenState → Except GErr (List Value) × GenState
  | 0, acc, st => (.ok acc, st)
  | slots + 1, acc, st =>
    let cond : Option (GenState → Value → Bool) :=
      if unique then
        some (fun s v => ¬ acc.any (fun item => deepEqualGo s.refCells item v))
      else none
    match generateItemUntil itemChild itemsTy limits cond 10 st with
    | (.error e, st') =>
      if e.isNoValidValue then arrayLoop itemChild itemsTy limits unique slots acc st'
      else (.error e, st')
    | (.ok item, st') =>
      arrayLoop itemChild itemsTy limits unique slots (acc ++ [item]) st'

/-- The length draw and slot loop of `randomArray` (the part after the
aggregate-reference special case). -/
def randomArrayLoopPart (itemChild : GenFun) (Items : String)
    (minitems maxitems : Int) (UniqueItems : Bool) (limits : Option LimitTree)
    (cfg : GenCfg) (st : GenState) : Except GErr Value × GenState :=
  let lengthDrawn : Option (Int × GenState) :=
    if cfg.ForceMaxSize then some (maxitems, st)
    else
      match st.rng.intN (maxitems - minitems + 1) with
      | none => none
      | some (d, r') => some (minitems + d, { st with rng := r' })
  match lengthDrawn with
  | none => (.error .panics, st)
  | some (length, st) =>
    match arrayLoop itemChild Items limits UniqueItems length.toNat [] st with
    | (.error e, st') => (.error e, st')
    | (.ok items, st') =>
      if (items.length : Int) < minitems then (.error .noValidValue, st')
      else (.ok (.arr items), st')

/-- `randomArray`: clamp the bounds (negative `MaxItems` is derived
from the limits tree scaled by `SizeFactor`, floored at `minitems`);
short-circuit to one aggregate placeholder when the item type is a
`TmplRef` whose namespace already holds at least `minitems` values and
uniqueness is requested; otherwise draw a length (exactly `maxitems`
under `ForceMaxSize`), fill the slots, and fail with `ErrNoValidValue`
when fewer than `minitems` items were produced. -/
def randomArray (itemChild : GenFun) (cfg : GenCfg) (Items : String)
    (MinItems MaxItems : Int) (UniqueItems : Bool) (limits : Option LimitTree)
    (st : GenState) : Except GErr Value × GenState :=
  let minitems := if MinItems < 0 then 0 else MinItems
  let maxitems :=
    if MaxItems < 0 then
      let maxLimit := qTrunc (cfg.SizeFactor * (getLimitL limits : ℚ))
      max minitems maxLimit
    else MaxItems
  let scNs : Option String :=
    match alookup cfg.Template.Types Items with
    | some (.ref ns) => some ns
    | _ => none
  match scNs with
  | some ns =>
    let (known, st) := numNSValues st ns
    if minitems ≤ (known : Int) ∧ UniqueItems then
      match st.rng.intN ((known : Int) - minitems + 1) with
      | none => (.error .panics, st)
      | some (d, r') =>
        let st := { st with rng := r' }
        let (i, st) := newRefCell st ns (minitems + d)
        (.ok (.ref i), adNSRef st ns i)
    else
      randomArrayLoopPart itemChild Items minitems maxitems UniqueItems limits cfg st
  | none =>
    randomArrayLoopPart itemChild Items minitems maxitems UniqueItems limits cfg st

/-- The candidate loop of `randomOneOf`: first non-abandoning
candidate wins; abandons are remembered and retried with the next
candidate; other errors propagate at once. -/
def oneOfLoop (child : GenFun) (limits : Option LimitTree) :
    List String → Option GErr → GenState → Except GErr Value × GenState
  | [], abandoned, st =>
    match abandoned with
    | some e => (.error e, st)
    | none => (.error .cannotGenerateOneOf, st)
  | ty :: rest, abandoned, st =>
    match child ty limits st with
    | (.error e, st') =>
      if e.isAbandoned then oneOfLoop child limits rest (some e) st'
      else (.error e, st')
    | ok => ok

/-- `randomOneOf`: shuffle the candidates, then try them in order. -/
def randomOneOf (child : GenFun) (oneof : List String)
    (limits : Option LimitTree) (st : GenState) : Except GErr Value × GenState :=
  let (shuffled, r') := shuffleGo st.rng oneof
  oneOfLoop child limits shuffled none { st with rng := r' }

/-- The required-property loop of `generateObject`: every required
property is instantiated, any error aborts the object. -/
def requiredLoop (child : GenFun) (limits : Option LimitTree) :
    List PropertyT → List (String × Value) → GenState →
    Except GErr (List (String × Value)) × GenState
  | [], acc, st => (.ok acc, st)
  | p :: rest, acc, st =>
    match child p.Type' (descendL limits p.Name) st with
    | (.error e, st') => (.error e, st')
    | (.ok v, st') => requiredLoop child limits rest (aset acc p.Name v) st'

/-- The optional-property loop of `generateObject`: while more
properties are wanted and candidates remain, pick a uniformly random
candidate, remove it from the pool, and instantiate it; abandon-class
failures skip the property (remembering the cause), other errors
abort.  `fuel` is the candidate-pool size (one candidate is removed
per iteration, so the loop is exactly Go's
`for extraProps > 0 && len(optional) > 0`). -/
def optionalLoop (child : GenFun) (limits : Option LimitTree) :
    Nat → List PropertyT → Int → List (String × Value) → Option GErr →
    GenState → Except GErr (List (String × Value) × Option GErr) × GenState
  | fuel, optional, extra, props, ba, st =>
    if extra > 0 ∧ optional.length > 0 then
      match fuel with
      | 0 => (.ok (props, ba), st)
      | fuel' + 1 =>
        match st.rng.intN (optional.length : Int) with
        | none => (.error .panics, st)
        | some (i, r') =>
          let p := optional.getD i ⟨"", "", false⟩
          let optional' := optional.eraseIdx i
          let st := { st with rng := r' }
          match child p.Type' (descendL limits p.Name) st with
          | (.error e, st') =>
            if e.isAbandoned then
              optionalLoop child limits fuel' optional' extra props (some e) st'
            else (.error e, st')
          | (.ok v, st') =>
            optionalLoop child limits fuel' optional' (extra - 1)
              (aset props p.Name v) ba st'
    else (.ok (props, ba), st)

/-- `generateObject`: required properties first, then a random number
of optional ones (`extraProps` between the deficit to
`max MinProperties #required` and the headroom to `MaxProperties`,
the total property count standing in for an unset `MaxProperties`);
fail — preferring the remembered abandon cause — when fewer than
`minProps` properties were produced. -/
def generateObject (child : GenFun) (Properties : List PropertyT)
    (MinProperties MaxProperties : Int) (limits : Option LimitTree)
    (st : GenState) : Except GErr Value × GenState :=
  let required := Properties.filter (·.Required)
  let optional := Properties.filter (fun p => ¬ p.Required)
  match requiredLoop child limits required [] st with
  | (.error e, st') => (.error e, st')
  | (.ok props, st') =>
    let minProps := max MinProperties (props.length : Int)
    let maxProps := if MaxProperties < 0 then (Properties.length : Int) else MaxProperties
    let extra0 := minProps - (props.length : Int)
    let extraDrawn : Option (Int × GenState) :=
      if maxProps > minProps then
        match st'.rng.intN (maxProps - minProps + 1) with
        | none => none
        | some (d, r') => some (extra0 + d, { st' with rng := r' })
      else some (extra0, st')
    match extraDrawn with
    | none => (.error .panics, st')
    | some (extra, st') =>
      match optionalLoop child limits optional.length optional extra props none st' with
      | (.error e, st'') => (.error e, st'')
      | (.ok (props', ba), st'') =>
        if (props'.length : Int) < minProps then
          match ba with
          | some e => (.error e, st'')
          | none => (.error (.insufficientProperties minProps), st'')
        else (.ok (.obj props'), st'')

/-- Modelled from the spec: the per-variant `Instantiate` methods of
`TmplNode` are not among the provided sources (only their caller
`generateNode` and the per-variant generator functions are).  Per
§4.1 step 3 instantiation "dispatch[es] on the node's variant
(object/array/alternation/string/lorem/book/id/ref/number/datetime)
to the corresponding generator", and per §4.1 "String additionally
prefers, in order: an enumerated choice if present, else a pattern
sample if a compiled pattern is present, else a bounded random
character string". `child` generates at this node's Go depth−1,
`itemChild` at Go depth−2 (array items go through
`generateItemUntil`, which decrements once more). -/
def instantiate (child itemChild : GenFun) (cfg : GenCfg) (node : Tmpl)
    (limits : Option LimitTree) (st : GenState) : Except GErr Value × GenState :=
  match node with
  | .object props mn mx => generateObject child props mn mx limits st
  | .array items mn mx uniq => randomArray itemChild cfg items mn mx uniq limits st
  | .oneOf oneof => randomOneOf child oneof limits st
  | .str mn mx enum pat =>
    if enum.length > 0 then
      let (v, r') := chooseGo st.rng enum
      (.ok (.str v), { st with rng := r' })
    else
      match pat with
      | some ast =>
        match sampleAstNode ast ⟨st.rng, ""⟩ with
        | some s => (.ok (.str s.buf), { st with rng := s.rand })
        | none => (.error .panics, st)
      | none =>
        match randomString mn mx st with
        | (.ok s, st') => (.ok (.str s), st')
        | (.error e, st') => (.error e, st')
  | .lorem mn mx unit =>
    match loremIpsum mn mx unit st with
    | (.ok s, st') => (.ok (.str s), st')
    | (.error e, st') => (.error e, st')
  | .book mn mx path =>
    match bookGo cfg.fs mn mx path st with
    | (.ok s, st') => (.ok (.str s), st')
    | (.error e, st') => (.error e, st')
  | .id ns =>
    match generateID ns st with
    | (.ok s, st') => (.ok (.str s), st')
    | (.error e, st') => (.error e, st')
  | .ref ns => generateReference ns st
  | .number mn mx =>
    let (q, st') := randomNumber mn mx st
    (.ok (.num q), st')
  | .datetime mn mx =>
    let (t, st') := randomDateTime cfg.now mn mx st
    (.ok (.datetime t), st')

/-- The positive-depth body of `generateNode`: take a snapshot of the
namespace ledger, look the type name up, dispatch to `Instantiate`,
and — mirroring the deferred `restoreSnapshot` — roll the ledger back
when the result is an abandon-class error. -/
def genStep (cfg : GenCfg) (child itemChild : GenFun) : GenFun :=
  fun typename limits st =>
    let snapshot := st.nameSpaces
    match alookup cfg.Template.Types typename with
    | none => (.error (.unknownType typename), st)
    | some node =>
      match instantiate child itemChild cfg node limits st with
      | (.error e, st') =>
        if e.isAbandoned then (.error e, { st' with nameSpaces := snapshot })
        else (.error e, st')
      | ok => ok

/-- `generateNode` at a clamped depth: `gen cfg d` is Go's
`generateNode` with `depth = d` for `d ≥ 0` (every non-positive Go
depth behaves like `0`: `ErrDepthExceeded` before anything else).
Children run at depth−1 and array items at depth−2, clamped at 0. -/
def gen (cfg : GenCfg) : Nat → GenFun
  | 0 => fun _ _ st => (.error .depthExceeded, st)
  | 1 => genStep cfg (gen cfg 0) (gen cfg 0)
  | (k + 2) => genStep cfg (gen cfg (k + 1)) (gen cfg k)

/-- `generateNode`: `ErrDepthExceeded` for `depth ≤ 0` with the state
untouched, else the snapshot/lookup/dispatch/rollback step; each
recursive call passes `depth - 1`. -/
def generateNode (cfg : GenCfg) (typename : String) (limits : Option LimitTree)
    (depth : Int) (st : GenState) : Except GErr Value × GenState :=
  gen cfg depth.toNat typename limits st

/-! ## Reference fixup (`fixupReferences`) and resolution -/

/-- Lookup in a table keyed by cell id. -/
def tlookup (l : List (Nat × α)) (k : Nat) : Option α :=
  match l with
  | [] => none
  | (k', v) :: rest => if k' = k then some v else tlookup rest k

/-- The per-namespace placeholder loop of `fixupReferences`: arity
`< 0` draws one value, arity `0` resolves empty without a draw, arity
`n > 0` draws `n` distinct positions of the value pool (`chooseK`). -/
def fixupRefs (cells : List RefCell) (values : List String) :
    List Nat → List (Nat × List String) → Rng → List (Nat × List String) × Rng
  | [], table, r => (table, r)
  | i :: rest, table, r =>
    let len := (cells.getD i ⟨"", 0⟩).Length
    let (vals, r') :=
      if len < 0 then
        let (v, r') := chooseGo r values
        ([v], r')
      else if len = 0 then (([] : List String), r)
      else chooseKGo r len.toNat values
    fixupRefs cells values rest (table ++ [(i, vals)]) r'

/-- The body of `fixupReferences`'s namespace loop: one step per
namespace, in the order the map iteration hands them over; a
namespace with placeholders but no values is the fatal
internal-consistency error. -/
def fixupLoop (cells : List RefCell) :
    List (String × NameSpace) → List (Nat × List String) → Rng →
    Except GErr (List (Nat × List String)) × Rng
  | [], table, r => (.ok table, r)
  | (name, ns) :: rest, table, r =>
    if ns.Values.length = 0 ∧ ns.Refs.length > 0 then (.error (.fixupNoIDs name), r)
    else
      let (table', r') := fixupRefs cells ns.Values ns.Refs table r
      fixupLoop cells rest table' r'

/-- `fixupReferences`: resolve every registered placeholder against
its namespace's final value pool; the result is the id → values table
(Go mutates each `reference.Values` in place).  The loop `range`s over
the `NameSpaces` Go map while drawing from the shared random source
per placeholder, so the iteration order `ord` — unspecified and
runtime-randomized in Go — is an observable input of the pass. -/
def fixupReferences (ord : List (String × NameSpace) → List (String × NameSpace))
    (st : GenState) : Except GErr (List (Nat × List String)) × GenState :=
  match fixupLoop st.refCells (ord st.nameSpaces) [] st.rng with
  | (.ok table, r') => (.ok table, { st with rng := r' })
  | (.error e, r') => (.error e, { st with rng := r' })

mutual
/-- Substitute resolved reference values into the tree
(`reference.MarshalJSON`: arity `< 0` serializes as the single string
`Values[0]`, otherwise as the array of strings). -/
def resolveValue (cells : List RefCell) (table : List (Nat × List String)) :
    Value → Value
  | .ref i =>
    (match tlookup table i with
     | some vals =>
       if (cells.getD i ⟨"", 0⟩).Length < 0 then .str (vals.getD 0 "")
       else .arr (vals.map .str)
     | none => .ref i)
  | .arr items => .arr (resolveList cells table items)
  | .obj fields => .obj (resolveFields cells table fields)
  | v => v

/-- `resolveValue` over array elements. -/
def resolveList (cells : List RefCell) (table : List (Nat × List String)) :
    List Value → List Value
  | [] => []
  | v :: rest => resolveValue cells table v :: resolveList cells table rest

/-- `resolveValue` over object fields. -/
def resolveFields (cells : List RefCell) (table : List (Nat × List String)) :
    List (String × Value) → List (String × Value)
  | [] => []
  | (k, v) :: rest => (k, resolveValue cells table v) :: resolveFields cells table rest
end

/-- The initial generator state for a run (`NewGenerator`: empty
ledger, empty file cache, the seeded random source). -/
def initState (r : Rng) : GenState :=
  { rng := r, nameSpaces := [], refCells := [], fileCache := [] }

/-- `Generate`: build the array-limits tree, generate the root type at
depth 25, run the reference fixup pass, and return the document with
its references resolved (Go returns the same tree, whose `reference`
cells were mutated by fixup). -/
def Generate (cfg : GenCfg) (r : Rng) : Except GErr Value × GenState :=
  let limits := arrayLimits cfg.Limits
  match generateNode cfg cfg.Template.Root (some limits) 25 (initState r) with
  | (.error e, st) => (.error e, st)
  | (.ok doc, st) =>
    match fixupReferences cfg.mapOrder st with
    | (.error e, st') => (.error e, st')
    | (.ok table, st') => (.ok (resolveValue st'.refCells table doc), st')

/-- The ledger entry observed for a namespace (an absent namespace
reads as empty, as through `getNamespace`). -/
def nsEntry (st : GenState) (ns : String) : NameSpace :=
  (alookup st.nameSpaces ns).getD ⟨[], []⟩

mutual
/-- The reference handles occurring in a value tree. -/
def refIds : Value → List Nat
  | .ref i => [i]
  | .arr items => refIdsList items
  | .obj fields => refIdsFields fields
  | _ => []

/-- `refIds` over array elements. -/
def refIdsList : List Value → List Nat
  | [] => []
  | v :: rest => refIds v ++ refIdsList rest

/-- `refIds` over object fields. -/
def refIdsFields : List (String × Value) → List Nat
  | [] => []
  | (_, v) :: rest => refIds v ++ refIdsFields rest
end

/-- Reference id `i` is registered under namespace `ns` in the ledger
(fixup will resolve exactly the registered placeholders). -/
def registeredIn (st : GenState) (i : Nat) (ns : String) : Prop :=
  i ∈ (nsEntry st ns).Refs

/-! ## Concrete fixtures for witnesses and counterexamples -/

/-- The all-zero random stream. -/
def rng0 : Rng := ⟨fun _ => 0, 0⟩

/-- Configuration with no limits guidance, size factor 1, wall clock 0,
an empty filesystem and a map iteration that happens to visit the
namespaces in insertion order. -/
def mkCfg (t : Template) : GenCfg :=
  { Template := t, Limits := none, SizeFactor := 1, ForceMaxSize := false,
    now := 0, fs := fun _ => none, mapOrder := fun l => l }

/-- Template of an array (`minItems = maxItems = 5`) of references into
a namespace that never receives a value. -/
def tmplRefArr : Template :=
  ⟨[("root", .array "r" 5 5 false), ("r", .ref "g")], "root"⟩

/-- Template whose root is a single reference into an empty namespace. -/
def tmplRefRoot : Template := ⟨[("root", .ref "g")], "root"⟩
/-- Template whose root is a date-time with neither bound. -/
def tmplDT : Template := ⟨[("root", .datetime none none)], "root"⟩

/-- Template whose run resolves references in two namespaces, `A`
(two identifier values) and `B` (one): the fixup pass's draws then
depend on which namespace the map iteration visits first. -/
def tmplNS2 : Template :=
  { Types := [("root", .object [⟨"i1", "GidA", true⟩, ⟨"i2", "GidA", true⟩,
                                ⟨"j", "GidB", true⟩, ⟨"ra", "GrefA", true⟩,
                                ⟨"rb", "GrefB", true⟩] (-1) (-1)),
              ("GidA", .id "A"), ("GidB", .id "B"),
              ("GrefA", .ref "A"), ("GrefB", .ref "B")], Root := "root" }

/-- The random stream of the two-namespace run: three one-character
identifiers (`" "`, `"a"`, `" "`), then the fixup pass's two draws
(`0` and `1`). -/
def streamNS2 : Nat → Nat := fun p => [0, 0, 0, 1, 0, 0, 0, 1].getD p 0
/-- A state whose namespace `ns` holds three identifier values. -/
def st3vals : GenState := ⟨rng0, [("ns", ⟨["x", "y", "z"], []⟩)], [], []⟩

/-- A generator function that always abandons (stands in for an
arbitrary `itemChild`; the short circuit must never invoke it). -/
def failFun : GenFun := fun _ _ st => (.error .depthExceeded, st)
/-- A child generator that always succeeds with a fixed string (stands
in for an arbitrary `child` in concrete object runs). -/
def okFun : GenFun := fun _ _ st => (.ok (.str "v"), st)

/-- A required property of type `"S"`. -/
def reqProp (n : String) : PropertyT := ⟨n, "S", true⟩
/-- Ledger growth: cells are only appended, and every namespace's
value and reference lists only grow (or are restored to an earlier
prefix of themselves taken at entry, which this relation also covers
because restoration happens only to the entry state). -/
def StLe (st st' : GenState) : Prop :=
  st.refCells <+: st'.refCells ∧
  ∀ ns, (nsEntry st ns).Values <+: (nsEntry st' ns).Values ∧
    (nsEntry st ns).Refs <+: (nsEntry st' ns).Refs
/-- Internal consistency of the ledger: every registered placeholder
has a cell, the cell's namespace is the one it is registered under,
its arity is within the namespace's value pool, placeholder ids are
registered at most once and under a single namespace, and the
namespace map has no duplicate keys. -/
structure StInv (st : GenState) : Prop where
  cells : ∀ ns i, i ∈ (nsEntry st ns).Refs →
    ∃ c, st.refCells[i]? = some c ∧ c.Namespace = ns ∧
      (c.Length < 0 → 1 ≤ (nsEntry st ns).Values.length) ∧
      (0 ≤ c.Length → c.Length ≤ ((nsEntry st ns).Values.length : Int))
  uniq : ∀ ns ns' i, i ∈ (nsEntry st ns).Refs → i ∈ (nsEntry st ns').Refs → ns = ns'
  nodup : ∀ ns, (nsEntry st ns).Refs.Nodup
  keys : (st.nameSpaces.map Prod.fst).Nodup
/-- The compositional contract of one generator step relative to its
entry state: the ledger only grows, the invariant is preserved, and
every reference handle in a successfully produced value is registered
in the final ledger. -/
def StepOK (st : GenState) (res : Except GErr Value × GenState) : Prop :=
  StLe st res.2 ∧ (StInv st → StInv res.2) ∧
  (StInv st → ∀ v, res.1 = .ok v → ∀ i ∈ refIds v, ∃ ns, registeredIn res.2 i ns)

/-- `StepOK` for every invocation. -/
def GenOK (g : GenFun) : Prop :=
  ∀ ty lim st, StepOK st (g ty lim st)
def cellBoundsOK (cells : List RefCell) (values : List String) (i : Nat) : Prop :=
  ((cells.getD i ⟨"", 0⟩).Length < 0 → 0 < values.length) ∧
  (0 ≤ (cells.getD i ⟨"", 0⟩).Length →
    (cells.getD i ⟨"", 0⟩).Length ≤ (values.length : Int))

def valsOK (cells : List RefCell) (values : List String) (i : Nat)
    (vals : List String) : Prop :=
  (∀ v ∈ vals, v ∈ values) ∧
  ((cells.getD i ⟨"", 0⟩).Length < 0 → vals.length = 1) ∧
  ((cells.getD i ⟨"", 0⟩).Length = 0 → vals = []) ∧
  (0 < (cells.getD i ⟨"", 0⟩).Length →
    ∃ idxs : List Nat, idxs.Nodup ∧
      idxs.length = (cells.getD i ⟨"", 0⟩).Length.toNat ∧
      (∀ j ∈ idxs, j < values.length) ∧
      vals = idxs.map (fun j => values.getD j ""))
def streamC3 : Nat → Nat := fun p => [0, 0, 1, 0, 1, 0, 0].getD p 0

def tmplC3 : Template :=
  { Types := [("root", .object [⟨"xs", "IdArr", true⟩, ⟨"rs", "RefArr", true⟩] (-1) (-1)),
              ("IdArr", .array "Gid" 2 2 false),
              ("RefArr", .array "Gref" 2 2 true),
              ("Gid", .id "g"), ("Gref", .ref "g")], Root := "root" }

/-! ## Basic lemmas about the association-list operations -/

theorem alookup_aset_self (l : List (String × α)) (k : String) (v : α) :
    alookup (aset l k v) k = some v := by
  induction l with
  | nil => simp [aset, alookup]
  | cons p rest ih =>
    obtain ⟨k', v'⟩ := p
    by_cases h : k' = k
    · simp [aset, alookup, h]
    · simp [aset, alookup, h, ih]

theorem alookup_aset_other (l : List (String × α)) (k k' : String) (v : α)
    (h : k' ≠ k) : alookup (aset l k v) k' = alookup l k' := by
  have hk : ¬ k = k' := fun hh => h hh.symm
  induction l with
  | nil => simp [aset, alookup, hk]
  | cons p rest ih =>
    obtain ⟨k₀, v₀⟩ := p
    by_cases h0 : k₀ = k
    · subst h0
      simp [aset, alookup, hk]
    · simp [aset, alookup, h0, ih]

theorem alookup_append_right (l t : List (String × α)) (k : String)
    (h : alookup l k = none) : alookup (l ++ t) k = alookup t k := by
  induction l with
  | nil => simp
  | cons p rest ih =>
    obtain ⟨k₀, v₀⟩ := p
    by_cases h0 : k₀ = k
    · simp [alookup, h0] at h
    · simp [alookup, h0] at h ⊢
      exact ih h

theorem alookup_append_left (l t : List (String × α)) (k : String) (v : α)
    (h : alookup l k = some v) : alookup (l ++ t) k = some v := by
  induction l with
  | nil => simp [alookup] at h
  | cons p rest ih =>
    obtain ⟨k₀, v₀⟩ := p
    by_cases h0 : k₀ = k
    · simp [alookup, h0] at h ⊢
      exact h
    · simp [alookup, h0] at h ⊢
      exact ih h

/-! ## Unfolding equations for the depth recursion -/

theorem gen_zero (cfg : GenCfg) :
    gen cfg 0 = fun _ _ st => (.error .depthExceeded, st) := rfl

theorem gen_one (cfg : GenCfg) :
    gen cfg 1 = genStep cfg (gen cfg 0) (gen cfg 0) := rfl

theorem gen_add_two (cfg : GenCfg) (k : Nat) :
    gen cfg (k + 2) = genStep cfg (gen cfg (k + 1)) (gen cfg k) := rfl

/-- Any positive depth runs one `genStep` with children one and two
levels shallower (clamped at 0). -/
theorem gen_succ (cfg : GenCfg) (k : Nat) :
    gen cfg (k + 1) = genStep cfg (gen cfg k) (gen cfg (k - 1)) := by
  cases k with
  | zero => exact gen_one cfg
  | succ k' => exact gen_add_two cfg k'

/-- `genStep` restores the namespace snapshot whenever the dispatched
instantiation ends in an abandon-class error, and otherwise never
touches the ledger on its own: an error result that is abandon-class
always leaves the ledger exactly as given. -/
theorem genStep_abandon_restores (cfg : GenCfg) (child itemChild : GenFun)
    (typename : String) (limits : Option LimitTree) (st : GenState)
    (e : GErr) (st' : GenState)
    (h : genStep cfg child itemChild typename limits st = (.error e, st'))
    (ha : e.isAbandoned = true) : st'.nameSpaces = st.nameSpaces := by
  unfold genStep at h
  cases halk : alookup cfg.Template.Types typename with
  | none =>
    rw [halk] at h
    have h2 := congrArg Prod.snd h
    simp at h2
    rw [← h2]
  | some node =>
    rw [halk] at h
    dsimp only at h
    rcases hinst : instantiate child itemChild cfg node limits st with ⟨res, st''⟩
    rw [hinst] at h
    cases res with
    | ok v => simp at h
    | error e' =>
      by_cases hab : e'.isAbandoned = true
      · simp [hab] at h
        rw [← h.2]
      · simp [hab] at h
        rw [← h.1] at ha
        exact absurd ha hab


/-! ## C4 -/

/-- C4: for every type name, limits tree, state and depth budget
`≤ 0`, `generateNode` returns `ErrDepthExceeded` with the state — the
ledger and the random cursor — untouched, i.e. before recursing or
dispatching.  Termination for every grammar, cyclic ones included, is
intrinsic: `gen` recurses only on the strictly decreasing depth
argument, so `generateNode` is a total function for every template. -/
theorem C4_depth_exhausted_no_recursion (cfg : GenCfg) (typename : String)
    (limits : Option LimitTree) (depth : Int) (st : GenState) (h : depth ≤ 0) :
    generateNode cfg typename limits depth st = (.error .depthExceeded, st) := by
  unfold generateNode
  rw [Int.toNat_of_nonpos h]
  rfl

/-- Witness for C4 at depth 0 on a concrete template and state. -/
theorem C4_witness :
    (0 : Int) ≤ 0 ∧
    generateNode (mkCfg tmplRefArr) "root" none 0 (initState rng0)
      = (.error .depthExceeded, initState rng0) :=
  ⟨le_refl 0,
   C4_depth_exhausted_no_recursion (mkCfg tmplRefArr) "root" none 0 (initState rng0)
     (le_refl 0)⟩

/-! ## C5 -/

/-- C5: whenever `generateNode` returns an abandon-class error (one
wrapping `ErrBranchAbandoned`), the namespace ledger — every
namespace's value list and reference list, and the set of existing
namespaces — is exactly its state at entry: the snapshot taken at the
start of the call is restored before the error propagates. -/
theorem C5_abandon_restores_ledger (cfg : GenCfg) (typename : String)
    (limits : Option LimitTree) (depth : Int) (st : GenState)
    (e : GErr) (st' : GenState)
    (h : generateNode cfg typename limits depth st = (.error e, st'))
    (ha : e.isAbandoned = true) : st'.nameSpaces = st.nameSpaces := by
  unfold generateNode at h
  rcases hd : depth.toNat with _ | k
  · rw [hd, gen_zero] at h
    have h2 := congrArg Prod.snd h
    simp at h2
    rw [← h2]
  · rw [hd, gen_succ] at h
    exact genStep_abandon_restores cfg (gen cfg k) (gen cfg (k - 1))
      typename limits st e st' h ha

/-- Witness for C5: a reference into an empty namespace abandons; the
namespace entry that `hasNSValues` created on the way is rolled back
(the final ledger is the empty initial one). -/
theorem C5_witness :
    generateNode (mkCfg tmplRefRoot) "root" none 25 (initState rng0)
        = (.error (.noIDs "g"), initState rng0) ∧
    (GErr.noIDs "g").isAbandoned = true ∧
    (initState rng0).nameSpaces = (initState rng0).nameSpaces :=
  ⟨rfl, rfl,
   C5_abandon_restores_ledger (mkCfg tmplRefRoot) "root" none 25 (initState rng0)
     (.noIDs "g") (initState rng0) rfl rfl⟩

/-! ## C7 -/

/-- C7: `checkAstNode` does reject an empty character class at the
node it is called on, but the recursive calls for concatenation (and
alternation, capture, repeats) discard the returned error, so an AST
whose empty character class sits below a concatenation — e.g. the
parse of `a[^\x00-\x{10FFFF}]`, `OpConcat [OpLiteral "a",
OpCharClass []]` — passes `checkAst`, and `CompileRegexp` succeeds
instead of returning an error (the sampler later panics on it). -/
theorem C7_nested_empty_class_accepted :
    checkAst (.concat [.literal [97], .charClass []]) = none ∧
    checkAst (.charClass []) = some "character class without valid matches" :=
  ⟨rfl, rfl⟩

/-! ## C9 -/

/-- Value of `chooseRange` when the regex supplied an upper bound. -/
theorem chooseRange_fst_eq (low high : Int) (r : Rng) (hn : ¬ high < 0) :
    (chooseRange low high r).1 =
      if high - low > 0 then
        low + (((r.stream r.pos) % (high - low + 1).toNat : Nat) : Int)
      else high := by
  simp only [chooseRange, Rng.intN, Rng.next, if_neg hn]
  by_cases hgt : high - low > 0
  · have h1 : ¬ (high - low + 1 ≤ 0) := by omega
    simp only [if_pos hgt, if_neg h1]
  · simp only [if_neg hgt]
    omega

/-- Value of `chooseRange` when the regex had no upper bound
(`high < 0`): the effective range is `[low, low + 10]`. -/
theorem chooseRange_fst_neg (low high : Int) (r : Rng) (hn : high < 0) :
    (chooseRange low high r).1 = low + (((r.stream r.pos) % 11 : Nat) : Int) := by
  simp only [chooseRange, Rng.intN, Rng.next, if_pos hn]
  have hgt : low + 10 - low > 0 := by omega
  have h1 : ¬ (low + 10 - low + 1 ≤ 0) := by omega
  simp only [if_pos hgt, if_neg h1]
  have h2 : (low + 10 - low + 1).toNat = 11 := by omega
  rw [h2]

/-- C9 counterexample: the claim's implicit upper bound for `+` —
"the lower bound plus 10", i.e. 11 — is never attained: the sampler
calls `chooseRange 1 10`, whose result is at most 10, so the
repetition count is not uniform on `[1, 11]`. -/
theorem C9_counterexample : ¬ ∃ r : Rng, (chooseRange 1 10 r).1 = 1 + 10 := by
  rintro ⟨r, h⟩
  rw [chooseRange_fst_eq 1 10 r (by norm_num)] at h
  revert h
  have := Nat.mod_lt (r.stream r.pos) (show 0 < (((10 : Int) - 1 + 1).toNat) by norm_num)
  split_ifs <;> omega

/-- C9 (amended): the sampler's repetition counts all come from
`chooseRange`: `{m,n}` uses `chooseRange m n`, `+` uses
`chooseRange 1 10` (a fixed upper bound of 10, not lower + 10), `*`
uses `chooseRange 0 10`, and an unbounded `{m,}` (negative `Max`)
uses `m + 10`; within these, the drawn count lies in the inclusive
range. -/
theorem C9_repeat_count_bounds (m n : Int) (r : Rng) :
    (∀ (sub : Rx) (s : SamplerSt) (cnt : Int) (r₂ : Rng),
        chooseRange m n s.rand = (cnt, r₂) →
        sampleAstNode (.repeatOp m n sub) s
          = repeatRx sub cnt.toNat { s with rand := r₂ }) ∧
    (∀ (sub : Rx) (s : SamplerSt) (cnt : Int) (r₂ : Rng),
        chooseRange 1 10 s.rand = (cnt, r₂) →
        sampleAstNode (.plus sub) s = repeatRx sub cnt.toNat { s with rand := r₂ }) ∧
    (∀ (sub : Rx) (s : SamplerSt) (cnt : Int) (r₂ : Rng),
        chooseRange 0 10 s.rand = (cnt, r₂) →
        sampleAstNode (.star sub) s = repeatRx sub cnt.toNat { s with rand := r₂ }) ∧
    (0 ≤ m → m ≤ n → m ≤ (chooseRange m n r).1 ∧ (chooseRange m n r).1 ≤ n) ∧
    (n < 0 → m ≤ (chooseRange m n r).1 ∧ (chooseRange m n r).1 ≤ m + 10) ∧
    (1 ≤ (chooseRange 1 10 r).1 ∧ (chooseRange 1 10 r).1 ≤ 10) ∧
    (0 ≤ (chooseRange 0 10 r).1 ∧ (chooseRange 0 10 r).1 ≤ 10) := by
  refine ⟨?_, ?_, ?_, ?_, ?_, ?_, ?_⟩
  · intro sub s cnt r₂ hcr
    rw [sampleAstNode, hcr]
  · intro sub s cnt r₂ hcr
    rw [sampleAstNode, hcr]
  · intro sub s cnt r₂ hcr
    rw [sampleAstNode, hcr]
  · intro h0 hmn
    rw [chooseRange_fst_eq m n r (by omega)]
    split_ifs with h1
    · have hlt := Nat.mod_lt (r.stream r.pos)
        (show 0 < ((n - m + 1).toNat) by omega)
      omega
    · omega
  · intro hn
    rw [chooseRange_fst_neg m n r hn]
    have hlt := Nat.mod_lt (r.stream r.pos) (show 0 < 11 by norm_num)
    omega
  · rw [chooseRange_fst_eq 1 10 r (by norm_num)]
    have hlt := Nat.mod_lt (r.stream r.pos)
      (show 0 < (((10 : Int) - 1 + 1).toNat) by norm_num)
    split_ifs <;> omega
  · rw [chooseRange_fst_eq 0 10 r (by norm_num)]
    have hlt := Nat.mod_lt (r.stream r.pos)
      (show 0 < (((10 : Int) - 0 + 1).toNat) by norm_num)
    split_ifs <;> omega

/-- Witness for C9 at `{2,5}` on the all-zero stream. -/
theorem C9_witness :
    (0 : Int) ≤ 2 ∧ (2 : Int) ≤ 5 ∧
    2 ≤ (chooseRange 2 5 rng0).1 ∧ (chooseRange 2 5 rng0).1 ≤ 5 := by
  have h := (C9_repeat_count_bounds 2 5 rng0).2.2.2.1 (by norm_num) (by norm_num)
  exact ⟨by norm_num, by norm_num, h.1, h.2⟩

/-! ## C10 -/

theorem randomCharList_length (n : Nat) (r : Rng) :
    (randomCharList n r).1.length = n := by
  induction n generalizing r with
  | zero => rfl
  | succ k ih =>
    simp only [randomCharList]
    rcases h1 : chooseGo r goChars with ⟨c, r'⟩
    rcases h2 : randomCharList k r' with ⟨rest, r''⟩
    have := ih r'
    rw [h2] at this
    simp [h1, h2, this]

/-- C10: for equal non-negative length bounds, `loremIpsum` and `book`
draw the length with `IntN (maxlength - minlength) = IntN 0`, which has
no defined result (the Go runtime panics), so their generation is not
total; `randomString` with the same bounds uses the inclusive
`IntN (maxlength - minlength + 1)` and returns a string of exactly
that length. -/
theorem C10_equal_bounds_panic (n : Int) (hn : 0 ≤ n) (unit : LoremUnit)
    (path : String) (fs : String → Option String) (st : GenState) :
    (loremIpsum n n unit st).1 = .error .panics ∧
    (bookGo fs n n path st).1 = .error .panics ∧
    ∃ s, (randomString n n st).1 = .ok s ∧ (s.length : Int) = n := by
  have hnneg : ¬ n < 0 := by omega
  refine ⟨?_, ?_, ?_⟩
  · simp only [loremIpsum, if_neg hnneg, Rng.intN, if_pos (by omega : n - n ≤ (0 : Int))]
  · simp only [bookGo, if_neg hnneg, Rng.intN, if_pos (by omega : n - n ≤ (0 : Int))]
  · simp only [randomString, if_neg hnneg, Rng.intN,
      if_neg (by omega : ¬ n - n + 1 ≤ (0 : Int))]
    refine ⟨(String.mk (randomCharList (n.toNat + st.rng.stream st.rng.pos %
      (n - n + 1).toNat) ⟨st.rng.stream, st.rng.pos + 1⟩).1), ?_, ?_⟩
    · rfl
    · have h1 : (n - n + 1).toNat = 1 := by omega
      have hmod : st.rng.stream st.rng.pos % (n - n + 1).toNat = 0 := by
        rw [h1, Nat.mod_one]
      simp [hmod, randomCharList_length, Int.toNat_of_nonneg hn]

/-- Witness for C10 at bounds 3–3 on the all-zero stream. -/
theorem C10_witness :
    (0 : Int) ≤ 3 ∧
    ((loremIpsum 3 3 .words (initState rng0)).1 = .error .panics ∧
     (bookGo (fun _ => none) 3 3 "p" (initState rng0)).1 = .error .panics ∧
     ∃ s, (randomString 3 3 (initState rng0)).1 = .ok s ∧ (s.length : Int) = 3) :=
  ⟨by norm_num,
   C10_equal_bounds_panic 3 (by norm_num) .words "p" (fun _ => none) (initState rng0)⟩

/-! ## C1 -/


set_option maxHeartbeats 4000000 in
/-- The two-namespace run under the insertion iteration order: the
fixup pass's first draw resolves namespace `A`'s placeholder. -/
theorem generateNS2_insertion :
    (Generate (mkCfg tmplNS2) ⟨streamNS2, 0⟩).1
      = .ok (.obj [("i1", .str " "), ("i2", .str "a"), ("j", .str " "),
                   ("ra", .str " "), ("rb", .str " ")]) := rfl

set_option maxHeartbeats 4000000 in
/-- The same seed and world under the reversed iteration order: the
first draw now resolves namespace `B`'s placeholder, and `"ra"`
resolves differently. -/
theorem generateNS2_reversed :
    (Generate { mkCfg tmplNS2 with mapOrder := fun l => l.reverse } ⟨streamNS2, 0⟩).1
      = .ok (.obj [("i1", .str " "), ("i2", .str "a"), ("j", .str " "),
                   ("ra", .str "a"), ("rb", .str " ")]) := rfl

/-- C1 counterexample: identically seeded Generators over identical
templates and configurations still differ (i) when the runs observe
different wall clocks — an unbounded date-time node samples from the
one-year window ending `time.Now()` — and (ii) even with the same
clock and files, when the two runs' iterations over the `NameSpaces`
Go map visit the namespaces in different orders: the fixup pass draws
from the shared random source per placeholder, so with two namespaces
holding references the same draws resolve different placeholders and
the output trees differ (here `"ra"` resolves to `" "` under
insertion order and to `"a"` under the reversed order). -/
theorem C1_counterexample :
    ((Generate (mkCfg tmplDT) rng0).1 = .ok (.datetime (0 - yearNs)) ∧
     (Generate { mkCfg tmplDT with now := 1 } rng0).1 = .ok (.datetime (1 - yearNs)) ∧
     (Generate (mkCfg tmplDT) rng0).1
       ≠ (Generate { mkCfg tmplDT with now := 1 } rng0).1) ∧
    ((Generate (mkCfg tmplNS2) ⟨streamNS2, 0⟩).1
       = .ok (.obj [("i1", .str " "), ("i2", .str "a"), ("j", .str " "),
                    ("ra", .str " "), ("rb", .str " ")]) ∧
     (Generate { mkCfg tmplNS2 with mapOrder := fun l => l.reverse } ⟨streamNS2, 0⟩).1
       = .ok (.obj [("i1", .str " "), ("i2", .str "a"), ("j", .str " "),
                    ("ra", .str "a"), ("rb", .str " ")]) ∧
     (Generate (mkCfg tmplNS2) ⟨streamNS2, 0⟩).1
       ≠ (Generate { mkCfg tmplNS2 with mapOrder := fun l => l.reverse }
           ⟨streamNS2, 0⟩).1) := by
  refine ⟨⟨rfl, rfl, ?_⟩, generateNS2_insertion, generateNS2_reversed, ?_⟩
  · intro h
    rw [show (Generate (mkCfg tmplDT) rng0).1 = .ok (.datetime (0 - yearNs)) from rfl,
        show (Generate { mkCfg tmplDT with now := 1 } rng0).1
          = .ok (.datetime (1 - yearNs)) from rfl] at h
    simp [yearNs] at h
  · intro h
    rw [generateNS2_insertion, generateNS2_reversed] at h
    simp at h

/-- C1 (amended): the two-run determinism of the claim holds only once
every external input of the run matches as well — two Generators with
identical template, limits, size factor, force-max-size flag,
identically seeded random streams, the same wall clock, the same file
contents and the same iteration order over the `NameSpaces` map
produce identical output trees and final states; the whole pipeline,
reference fixup included, is a pure function of exactly these inputs.
Both added hypotheses are necessary: `C1_counterexample` exhibits
identically seeded runs that differ when only the clock, or only the
map iteration order, differs. -/
theorem C1_same_seed_same_world_deterministic
    (t₁ t₂ : Template) (l₁ l₂ : Option Limits) (sf₁ sf₂ : ℚ) (fm₁ fm₂ : Bool)
    (now₁ now₂ : Int) (fs₁ fs₂ : String → Option String)
    (ord₁ ord₂ : List (String × NameSpace) → List (String × NameSpace)) (r₁ r₂ : Rng)
    (ht : t₁ = t₂) (hl : l₁ = l₂) (hsf : sf₁ = sf₂) (hfm : fm₁ = fm₂)
    (hnow : now₁ = now₂) (hfs : fs₁ = fs₂) (hord : ord₁ = ord₂) (hr : r₁ = r₂) :
    Generate ⟨t₁, l₁, sf₁, fm₁, now₁, fs₁, ord₁⟩ r₁
      = Generate ⟨t₂, l₂, sf₂, fm₂, now₂, fs₂, ord₂⟩ r₂ := by
  subst ht; subst hl; subst hsf; subst hfm; subst hnow; subst hfs; subst hord; subst hr
  rfl

/-- Witness for C1 (amended) on a concrete configuration. -/
theorem C1_witness :
    Generate ⟨tmplDT, none, 1, false, 0, fun _ => none, fun l => l⟩ rng0
      = Generate ⟨tmplDT, none, 1, false, 0, fun _ => none, fun l => l⟩ rng0 :=
  C1_same_seed_same_world_deterministic tmplDT tmplDT none none 1 1 false false
    0 0 (fun _ => none) (fun _ => none) (fun l => l) (fun l => l) rng0 rng0
    rfl rfl rfl rfl rfl rfl rfl rfl

/-! ## State-operation lemmas for the namespace ledger -/

theorem getNamespace_fst (st : GenState) (ns : String) :
    (getNamespace st ns).1 = nsEntry st ns := by
  unfold getNamespace nsEntry
  cases h : alookup st.nameSpaces ns <;> simp [h]

theorem getNamespace_nsEntry (st : GenState) (ns ns' : String) :
    nsEntry (getNamespace st ns).2 ns' = nsEntry st ns' := by
  unfold getNamespace
  cases h : alookup st.nameSpaces ns with
  | some e => simp
  | none =>
    simp only [nsEntry]
    by_cases he : ns' = ns
    · subst he
      rw [alookup_append_right _ _ _ h]
      simp [alookup, h]
    · have hns : ¬ ns = ns' := fun hh => he hh.symm
      cases h2 : alookup st.nameSpaces ns' with
      | some x => rw [alookup_append_left _ _ _ _ h2]
      | none =>
        rw [alookup_append_right _ _ _ h2]
        simp [alookup, hns]

theorem getNamespace_refCells (st : GenState) (ns : String) :
    (getNamespace st ns).2.refCells = st.refCells := by
  unfold getNamespace
  cases h : alookup st.nameSpaces ns <;> simp

theorem getNamespace_rng (st : GenState) (ns : String) :
    (getNamespace st ns).2.rng = st.rng := by
  unfold getNamespace
  cases h : alookup st.nameSpaces ns <;> simp

theorem getNamespace_fileCache (st : GenState) (ns : String) :
    (getNamespace st ns).2.fileCache = st.fileCache := by
  unfold getNamespace
  cases h : alookup st.nameSpaces ns <;> simp

/-- After `getNamespace`, the namespace is present with its observed
entry. -/
theorem getNamespace_present (st : GenState) (ns : String) :
    alookup (getNamespace st ns).2.nameSpaces ns = some (nsEntry st ns) := by
  unfold getNamespace
  cases h : alookup st.nameSpaces ns with
  | some e => simp [nsEntry, h]
  | none =>
    simp only [nsEntry, h, Option.getD_none]
    rw [alookup_append_right _ _ _ h]
    simp [alookup]

theorem numNSValues_fst (st : GenState) (ns : String) :
    (numNSValues st ns).1 = (nsEntry st ns).Values.length := by
  unfold numNSValues
  rw [show (getNamespace st ns) = ((getNamespace st ns).1, (getNamespace st ns).2) from rfl,
      getNamespace_fst]

theorem numNSValues_snd (st : GenState) (ns : String) :
    (numNSValues st ns).2 = (getNamespace st ns).2 := by
  unfold numNSValues
  rw [show (getNamespace st ns) = ((getNamespace st ns).1, (getNamespace st ns).2) from rfl]

theorem hasNSValues_fst (st : GenState) (ns : String) :
    (hasNSValues st ns).1 = ((nsEntry st ns).Values.length > 0 : Bool) := by
  unfold hasNSValues
  rw [show (getNamespace st ns) = ((getNamespace st ns).1, (getNamespace st ns).2) from rfl,
      getNamespace_fst]

theorem hasNSValues_snd (st : GenState) (ns : String) :
    (hasNSValues st ns).2 = (getNamespace st ns).2 := by
  unfold hasNSValues
  rw [show (getNamespace st ns) = ((getNamespace st ns).1, (getNamespace st ns).2) from rfl]

theorem adNSRef_nsEntry_self (st : GenState) (ns : String) (i : Nat) :
    nsEntry (adNSRef st ns i) ns
      = { nsEntry st ns with Refs := (nsEntry st ns).Refs ++ [i] } := by
  unfold adNSRef
  rw [show (getNamespace st ns) = ((getNamespace st ns).1, (getNamespace st ns).2) from rfl,
      getNamespace_fst]
  simp only [nsEntry, alookup_aset_self]
  rfl

theorem adNSRef_nsEntry_other (st : GenState) (ns ns' : String) (i : Nat)
    (h : ns' ≠ ns) : nsEntry (adNSRef st ns i) ns' = nsEntry st ns' := by
  unfold adNSRef
  rw [show (getNamespace st ns) = ((getNamespace st ns).1, (getNamespace st ns).2) from rfl]
  simp only [nsEntry, alookup_aset_other _ _ _ _ h]
  have := getNamespace_nsEntry st ns ns'
  simp only [nsEntry] at this
  rw [this]

theorem adNSRef_refCells (st : GenState) (ns : String) (i : Nat) :
    (adNSRef st ns i).refCells = st.refCells := by
  unfold adNSRef
  rw [show (getNamespace st ns) = ((getNamespace st ns).1, (getNamespace st ns).2) from rfl]
  simp [getNamespace_refCells]

theorem adNSRef_rng (st : GenState) (ns : String) (i : Nat) :
    (adNSRef st ns i).rng = st.rng := by
  unfold adNSRef
  rw [show (getNamespace st ns) = ((getNamespace st ns).1, (getNamespace st ns).2) from rfl]
  simp [getNamespace_rng]

theorem adNSRef_fileCache (st : GenState) (ns : String) (i : Nat) :
    (adNSRef st ns i).fileCache = st.fileCache := by
  unfold adNSRef
  rw [show (getNamespace st ns) = ((getNamespace st ns).1, (getNamespace st ns).2) from rfl]
  simp [getNamespace_fileCache]

theorem addNSValue_nsEntry_self (st : GenState) (ns : String) (v : String) :
    nsEntry (addNSValue st ns v) ns
      = { nsEntry st ns with Values := (nsEntry st ns).Values ++ [v] } := by
  unfold addNSValue
  rw [show (getNamespace st ns) = ((getNamespace st ns).1, (getNamespace st ns).2) from rfl,
      getNamespace_fst]
  simp only [nsEntry, alookup_aset_self]
  rfl

theorem addNSValue_nsEntry_other (st : GenState) (ns ns' : String) (v : String)
    (h : ns' ≠ ns) : nsEntry (addNSValue st ns v) ns' = nsEntry st ns' := by
  unfold addNSValue
  rw [show (getNamespace st ns) = ((getNamespace st ns).1, (getNamespace st ns).2) from rfl]
  simp only [nsEntry, alookup_aset_other _ _ _ _ h]
  have := getNamespace_nsEntry st ns ns'
  simp only [nsEntry] at this
  rw [this]

theorem addNSValue_refCells (st : GenState) (ns v : String) :
    (addNSValue st ns v).refCells = st.refCells := by
  unfold addNSValue
  rw [show (getNamespace st ns) = ((getNamespace st ns).1, (getNamespace st ns).2) from rfl]
  simp [getNamespace_refCells]

theorem addNSValue_rng (st : GenState) (ns v : String) :
    (addNSValue st ns v).rng = st.rng := by
  unfold addNSValue
  rw [show (getNamespace st ns) = ((getNamespace st ns).1, (getNamespace st ns).2) from rfl]
  simp [getNamespace_rng]

theorem addNSValue_fileCache (st : GenState) (ns v : String) :
    (addNSValue st ns v).fileCache = st.fileCache := by
  unfold addNSValue
  rw [show (getNamespace st ns) = ((getNamespace st ns).1, (getNamespace st ns).2) from rfl]
  simp [getNamespace_fileCache]

/-! ## C8 -/

/-- C8: when an array's item type resolves to a `TmplRef` whose
namespace already has `known ≥ minItems` values and `UniqueItems` is
set, `randomArray` short-circuits: it returns a single aggregate
reference placeholder of arity in `[minItems, known]`, registers it,
and generates no items at all — no value list changes, exactly one
random draw is consumed, and nothing is recursed into (the result and
state are fully described below). -/
theorem C8_aggregate_reference_short_circuit (itemChild : GenFun) (cfg : GenCfg)
    (Items : String) (MinItems MaxItems : Int) (limits : Option LimitTree)
    (st : GenState) (ns : String)
    (hty : alookup cfg.Template.Types Items = some (.ref ns))
    (hmin : 0 ≤ MinItems)
    (hknown : MinItems ≤ ((nsEntry st ns).Values.length : Int)) :
    ∃ len : Int,
      MinItems ≤ len ∧ len ≤ ((nsEntry st ns).Values.length : Int) ∧
      (randomArray itemChild cfg Items MinItems MaxItems true limits st).1
        = .ok (.ref st.refCells.length) ∧
      (randomArray itemChild cfg Items MinItems MaxItems true limits st).2.refCells
        = st.refCells ++ [⟨ns, len⟩] ∧
      (nsEntry (randomArray itemChild cfg Items MinItems MaxItems true limits st).2 ns).Values
        = (nsEntry st ns).Values ∧
      (nsEntry (randomArray itemChild cfg Items MinItems MaxItems true limits st).2 ns).Refs
        = (nsEntry st ns).Refs ++ [st.refCells.length] ∧
      (∀ ns', ns' ≠ ns →
        nsEntry (randomArray itemChild cfg Items MinItems MaxItems true limits st).2 ns'
          = nsEntry st ns') ∧
      (randomArray itemChild cfg Items MinItems MaxItems true limits st).2.rng
        = ⟨st.rng.stream, st.rng.pos + 1⟩ := by
  have hra : randomArray itemChild cfg Items MinItems MaxItems true limits st
      = (let st₂ := (getNamespace st ns).2
         match st₂.rng.intN (((nsEntry st ns).Values.length : Int) - MinItems + 1) with
         | none => (.error .panics, st₂)
         | some (d, r') =>
           let st₃ := { st₂ with rng := r' }
           let (i, st₄) := newRefCell st₃ ns (MinItems + d)
           (.ok (.ref i), adNSRef st₄ ns i)) := by
    unfold randomArray
    rw [hty]
    simp only [if_neg (by omega : ¬ MinItems < 0)]
    rw [show (numNSValues st ns) = ((numNSValues st ns).1, (numNSValues st ns).2) from rfl,
        numNSValues_fst, numNSValues_snd]
    rw [if_pos (show MinItems ≤ ((nsEntry st ns).Values.length : Int) ∧ True from
      ⟨hknown, trivial⟩)]
  have hrng2 : (getNamespace st ns).2.rng = st.rng := getNamespace_rng st ns
  have hrc2 : (getNamespace st ns).2.refCells = st.refCells := getNamespace_refCells st ns
  have hpos : ¬ (((nsEntry st ns).Values.length : Int) - MinItems + 1) ≤ 0 := by omega
  set d := st.rng.stream st.rng.pos %
    (((nsEntry st ns).Values.length : Int) - MinItems + 1).toNat with hd
  have hdlt : d < (((nsEntry st ns).Values.length : Int) - MinItems + 1).toNat :=
    Nat.mod_lt _ (by omega)
  set st₄ : GenState :=
    { rng := { stream := st.rng.stream, pos := st.rng.pos + 1 },
      nameSpaces := (getNamespace st ns).2.nameSpaces,
      refCells := st.refCells ++ [⟨ns, MinItems + (d : Int)⟩],
      fileCache := (getNamespace st ns).2.fileCache } with hst₄
  have hns₄ : ∀ x, nsEntry st₄ x = nsEntry st x := by
    intro x
    have h1 : nsEntry st₄ x = nsEntry (getNamespace st ns).2 x := by
      unfold nsEntry
      rfl
    rw [h1, getNamespace_nsEntry]
  have hstep : randomArray itemChild cfg Items MinItems MaxItems true limits st
      = (.ok (.ref st.refCells.length), adNSRef st₄ ns st.refCells.length) := by
    rw [hra]
    simp only [Rng.intN, hrng2, Rng.next, if_neg hpos, newRefCell, hrc2]
  rw [hstep]
  refine ⟨MinItems + (d : Int), by omega, by omega, rfl, ?_, ?_, ?_, ?_, ?_⟩
  · show (adNSRef st₄ ns st.refCells.length).refCells = _
    rw [adNSRef_refCells]
  · show (nsEntry (adNSRef st₄ ns st.refCells.length) ns).Values = _
    rw [adNSRef_nsEntry_self, hns₄]
  · show (nsEntry (adNSRef st₄ ns st.refCells.length) ns).Refs = _
    rw [adNSRef_nsEntry_self, hns₄]
  · intro ns' hne
    show nsEntry (adNSRef st₄ ns st.refCells.length) ns' = _
    rw [adNSRef_nsEntry_other _ _ _ _ hne, hns₄]
  · show (adNSRef st₄ ns st.refCells.length).rng = _
    rw [adNSRef_rng]


/-- Witness for C8: a concrete short-circuited array over a namespace
with three known values. -/
theorem C8_witness :
    alookup (mkCfg ⟨[("it", .ref "ns")], "it"⟩).Template.Types "it" = some (.ref "ns") ∧
    (0 : Int) ≤ 2 ∧
    (2 : Int) ≤ ((nsEntry st3vals "ns").Values.length : Int) ∧
    ∃ len : Int, 2 ≤ len ∧ len ≤ ((nsEntry st3vals "ns").Values.length : Int) ∧
      (randomArray failFun (mkCfg ⟨[("it", .ref "ns")], "it"⟩) "it" 2 5 true none st3vals).1
        = .ok (.ref 0) := by
  have h := C8_aggregate_reference_short_circuit failFun
    (mkCfg ⟨[("it", .ref "ns")], "it"⟩) "it" 2 5 none st3vals "ns" rfl
    (by norm_num) (by norm_num [st3vals, nsEntry, alookup])
  obtain ⟨len, h1, h2, h3, _⟩ := h
  exact ⟨rfl, by norm_num, by norm_num [st3vals, nsEntry, alookup], len, h1, h2, h3⟩

/-! ## C6 -/

/-- A successful `IntN` draw is a positive-argument draw strictly
below the argument. -/
theorem intN_bound (r : Rng) (n : Int) (d : Nat) (r' : Rng)
    (h : r.intN n = some (d, r')) : 0 < n ∧ (d : Int) < n := by
  unfold Rng.intN at h
  split_ifs at h with h1
  simp only [Rng.next] at h
  obtain ⟨h2a, h2b⟩ := h
  refine ⟨by omega, ?_⟩
  have := Nat.mod_lt (r.stream r.pos) (show 0 < n.toNat by omega)
  omega


theorem aset_length_le (l : List (String × α)) (k : String) (v : α) :
    (aset l k v).length ≤ l.length + 1 := by
  induction l with
  | nil => simp [aset]
  | cons p rest ih =>
    obtain ⟨k₀, v₀⟩ := p
    by_cases h : k₀ = k <;> simp [aset, h] <;> omega

theorem aset_length_absent (l : List (String × α)) (k : String) (v : α)
    (h : alookup l k = none) : (aset l k v).length = l.length + 1 := by
  induction l with
  | nil => simp [aset]
  | cons p rest ih =>
    obtain ⟨k₀, v₀⟩ := p
    by_cases h0 : k₀ = k
    · simp [alookup, h0] at h
    · simp only [alookup, if_neg h0] at h
      simp [aset, h0, ih h]

/-- The required-property loop, on success, adds one entry per
property when the names are distinct and absent from the accumulator. -/
theorem requiredLoop_length_eq (child : GenFun) (limits : Option LimitTree) :
    ∀ (props : List PropertyT) (acc : List (String × Value)) (st : GenState)
      (acc' : List (String × Value)) (st' : GenState),
      (props.map (·.Name)).Nodup →
      (∀ p ∈ props, alookup acc p.Name = none) →
      requiredLoop child limits props acc st = (.ok acc', st') →
      acc'.length = acc.length + props.length := by
  intro props
  induction props with
  | nil =>
    intro acc st acc' st' _ _ h
    simp only [requiredLoop] at h
    injection h with h1 h2
    injection h1 with h1
    simp [← h1]
  | cons p rest ih =>
    intro acc st acc' st' hnodup hfresh h
    simp only [requiredLoop] at h
    rcases hc : child p.Type' (descendL limits p.Name) st with ⟨res, st₂⟩
    rw [hc] at h
    cases res with
    | error e => simp at h
    | ok v =>
      simp only at h
      have hfr : alookup acc p.Name = none := hfresh p (by simp)
      have hlen : (aset acc p.Name v).length = acc.length + 1 :=
        aset_length_absent acc p.Name v hfr
      have hnodup' : (rest.map (·.Name)).Nodup := by
        simp only [List.map_cons, List.nodup_cons] at hnodup
        exact hnodup.2
      have hfresh' : ∀ q ∈ rest, alookup (aset acc p.Name v) q.Name = none := by
        intro q hq
        have hne : q.Name ≠ p.Name := by
          simp only [List.map_cons, List.nodup_cons] at hnodup
          intro hh
          exact hnodup.1 (hh ▸ List.mem_map_of_mem (·.Name) hq)
        rw [alookup_aset_other _ _ _ _ hne]
        exact hfresh q (List.mem_cons_of_mem _ hq)
      have hrec := ih (aset acc p.Name v) st₂ acc' st' hnodup' hfresh' h
      simp only [List.length_cons]
      omega

/-- The optional-property loop adds at most one entry per requested
extra property. -/
theorem optionalLoop_length_le (child : GenFun) (limits : Option LimitTree) :
    ∀ (fuel : Nat) (optional : List PropertyT) (extra : Int)
      (props : List (String × Value)) (ba : Option GErr) (st : GenState)
      (props' : List (String × Value)) (ba' : Option GErr) (st' : GenState),
      optionalLoop child limits fuel optional extra props ba st = (.ok (props', ba'), st') →
      (props'.length : Int) ≤ (props.length : Int) + max 0 extra := by
  intro fuel
  induction fuel with
  | zero =>
    intro optional extra props ba st props' ba' st' h
    simp only [optionalLoop] at h
    split_ifs at h
    · injection h with h1 h2
      injection h1 with h1
      injection h1 with h1a h1b
      simp [← h1a]
    · injection h with h1 h2
      injection h1 with h1
      injection h1 with h1a h1b
      simp [← h1a]
  | succ fuel' ih =>
    intro optional extra props ba st props' ba' st' h
    simp only [optionalLoop] at h
    by_cases hguard : extra > 0 ∧ optional.length > 0
    · rw [if_pos hguard] at h
      rcases hIntN : st.rng.intN (optional.length : Int) with _ | ⟨i, r'⟩
      · rw [hIntN] at h
        simp at h
      · rw [hIntN] at h
        simp only at h
        rcases hc : child (optional.getD i ⟨"", "", false⟩).Type'
            (descendL limits (optional.getD i ⟨"", "", false⟩).Name)
            { st with rng := r' } with ⟨res, st₂⟩
        rw [hc] at h
        cases res with
        | error e =>
          dsimp only at h
          by_cases hab : e.isAbandoned = true
          · rw [if_pos hab] at h
            have := ih _ _ _ _ _ _ _ _ h
            omega
          · rw [if_neg hab] at h
            simp at h
        | ok v =>
          dsimp only at h
          have := ih _ _ _ _ _ _ _ _ h
          have haset := aset_length_le props (optional.getD i ⟨"", "", false⟩).Name v
          omega
    · rw [if_neg hguard] at h
      injection h with h1 h2
      injection h1 with h1
      injection h1 with h1a h1b
      simp [← h1a]

/-- C6 (amended): on a successful `generateObject` — for any child
generator — the generated property count lies in
`[max(MinProperties, #required), max(effectiveMaxProperties, #required)]`,
where `effectiveMaxProperties` is `MaxProperties` when set (`≥ 0`) and
the total property count otherwise, under the template invariants
(`MinProperties ≤ #properties`; `MinProperties ≤ MaxProperties` when
set) and pairwise-distinct property names.  The upper end must be
relaxed to `max(…, #required)` because all required properties are
always generated, even when they outnumber `MaxProperties`. -/
theorem C6_object_count_bounds (child : GenFun) (Properties : List PropertyT)
    (MinProperties MaxProperties : Int) (limits : Option LimitTree) (st : GenState)
    (v : Value) (st' : GenState)
    (hnodup : (Properties.map (·.Name)).Nodup)
    (hminle : MinProperties ≤ (Properties.length : Int))
    (hminmax : 0 ≤ MaxProperties → MinProperties ≤ MaxProperties)
    (hok : generateObject child Properties MinProperties MaxProperties limits st
      = (.ok v, st')) :
    ∃ fields, v = .obj fields ∧
      max MinProperties ((Properties.filter (·.Required)).length : Int)
        ≤ (fields.length : Int) ∧
      (fields.length : Int)
        ≤ max (if MaxProperties < 0 then (Properties.length : Int) else MaxProperties)
            ((Properties.filter (·.Required)).length : Int) := by
  unfold generateObject at hok
  dsimp only at hok
  rcases hreq : requiredLoop child limits (Properties.filter (·.Required)) [] st
    with ⟨rres, st₂⟩
  rw [hreq] at hok
  cases rres with
  | error e => simp at hok
  | ok props =>
    dsimp only at hok
    have hreqNodup : ((Properties.filter (·.Required)).map (·.Name)).Nodup := by
      have hsub : List.Sublist ((Properties.filter (·.Required)).map (·.Name))
          (Properties.map (·.Name)) :=
        (List.filter_sublist Properties).map (·.Name)
      exact hnodup.sublist hsub
    have hplen : props.length = (Properties.filter (·.Required)).length := by
      have := requiredLoop_length_eq child limits (Properties.filter (·.Required))
        [] st props st₂ hreqNodup (by intro p _; rfl) hreq
      simpa using this
    -- the extra-property draw
    set minProps := max MinProperties (props.length : Int) with hminProps
    set maxProps := (if MaxProperties < 0 then (Properties.length : Int) else MaxProperties)
      with hmaxProps
    by_cases hgt : maxProps > minProps
    · rw [if_pos hgt] at hok
      rcases hIntN : st₂.rng.intN (maxProps - minProps + 1) with _ | ⟨dd, r'⟩
      · rw [hIntN] at hok
        simp at hok
      · rw [hIntN] at hok
        dsimp only at hok
        have hddlt : (dd : Int) ≤ maxProps - minProps := by
          have := (intN_bound _ _ _ _ hIntN).2
          omega
        rcases hopt : optionalLoop child limits
            (Properties.filter (fun p => ¬ p.Required)).length
            (Properties.filter (fun p => ¬ p.Required))
            (minProps - (props.length : Int) + (dd : Int)) props none
            { st₂ with rng := r' } with ⟨ores, st₃⟩
        rw [hopt] at hok
        cases ores with
        | error e => simp at hok
        | ok pr =>
          obtain ⟨props', ba⟩ := pr
          dsimp only at hok
          by_cases hlt : (props'.length : Int) < minProps
          · rw [if_pos hlt] at hok
            cases ba <;> simp at hok
          · rw [if_neg hlt] at hok
            injection hok with h1 h2
            injection h1 with h1
            have hle := optionalLoop_length_le child limits _ _ _ _ _ _ _ _ _ hopt
            refine ⟨props', h1.symm, ?_, ?_⟩
            · omega
            · omega
    · rw [if_neg hgt] at hok
      dsimp only at hok
      rcases hopt : optionalLoop child limits
          (Properties.filter (fun p => ¬ p.Required)).length
          (Properties.filter (fun p => ¬ p.Required))
          (minProps - (props.length : Int)) props none st₂ with ⟨ores, st₃⟩
      rw [hopt] at hok
      cases ores with
      | error e => simp at hok
      | ok pr =>
        obtain ⟨props', ba⟩ := pr
        dsimp only at hok
        by_cases hlt : (props'.length : Int) < minProps
        · rw [if_pos hlt] at hok
          cases ba <;> simp at hok
        · rw [if_neg hlt] at hok
          injection hok with h1 h2
          injection h1 with h1
          have hle := optionalLoop_length_le child limits _ _ _ _ _ _ _ _ _ hopt
          refine ⟨props', h1.symm, ?_, ?_⟩
          · omega
          · simp only [hmaxProps] at *
            split_ifs at * <;> omega


/-- C6 counterexample: an object with five required properties and
`MaxProperties = 3` (a template satisfying the documented invariants:
`MinProperties = -1 ≤ 5` and `MinProperties ≤ MaxProperties`) is
generated successfully with five properties — outside the claim's
interval `[max(MinProperties, #required), MaxProperties] = [5, 3]`,
whose upper end `effectiveMaxProperties = 3` is exceeded. -/
theorem C6_counterexample :
    (generateObject okFun [reqProp "r1", reqProp "r2", reqProp "r3", reqProp "r4",
        reqProp "r5"] (-1) 3 none (initState rng0)).1
      = .ok (.obj [("r1", .str "v"), ("r2", .str "v"), ("r3", .str "v"),
          ("r4", .str "v"), ("r5", .str "v")]) ∧
    ¬ ((5 : Int) ≤ 3) :=
  ⟨rfl, by norm_num⟩

/-- Witness for C6 (amended): a concrete object with one required and
one optional property, `MinProperties = MaxProperties = 2`. -/
theorem C6_witness :
    (([⟨"a", "S", true⟩, ⟨"b", "S", false⟩] : List PropertyT).map (·.Name)).Nodup ∧
    (2 : Int) ≤ 2 ∧
    ∃ fields,
      Value.obj fields = .obj fields ∧
      max 2 ((([⟨"a", "S", true⟩, ⟨"b", "S", false⟩]
          : List PropertyT).filter (·.Required)).length : Int) ≤ (fields.length : Int) ∧
      (fields.length : Int)
        ≤ max (if (2 : Int) < 0 then ((2 : Nat) : Int) else 2)
            ((([⟨"a", "S", true⟩, ⟨"b", "S", false⟩]
              : List PropertyT).filter (·.Required)).length : Int) := by
  have h := C6_object_count_bounds okFun
    [⟨"a", "S", true⟩, ⟨"b", "S", false⟩] 2 2 none (initState rng0)
    (.obj [("a", .str "v"), ("b", .str "v")])
    (generateObject okFun [⟨"a", "S", true⟩, ⟨"b", "S", false⟩] 2 2 none
      (initState rng0)).2
    (by decide) (by norm_num) (fun _ => le_refl 2) rfl
  obtain ⟨fields, h1, h2, h3⟩ := h
  exact ⟨by decide, le_refl 2, fields, rfl, h2, by simpa using h3⟩

/-! ## C2 -/

/-- Any generation of a reference type into a namespace that is
present but empty abandons with the "no IDs" error and leaves the
state unchanged (the entry-time snapshot is restored). -/
theorem gen_ref_empty_fail (cfg : GenCfg) (ns ty : String) (k : Nat)
    (lim : Option LimitTree) (st : GenState)
    (hty : alookup cfg.Template.Types ty = some (.ref ns))
    (hg : alookup st.nameSpaces ns = some ⟨[], []⟩) :
    gen cfg (k + 1) ty lim st = (.error (.noIDs ns), st) := by
  rw [gen_succ]
  unfold genStep
  rw [hty]
  dsimp only
  unfold instantiate
  dsimp only
  unfold generateReference hasNSValues getNamespace
  rw [hg]
  dsimp only [GErr.isAbandoned]
  rfl

/-- `generateItemUntil` propagates the item's "no IDs" abandon error
on the very first attempt — the abandon-class cause is not neutralized
to `ErrNoValidValue` here. -/
theorem itemUntil_ref_empty_fail (cfg : GenCfg) (ns ty : String) (k : Nat)
    (lim : Option LimitTree) (att : Nat) (st : GenState)
    (hty : alookup cfg.Template.Types ty = some (.ref ns))
    (hg : alookup st.nameSpaces ns = some ⟨[], []⟩) :
    generateItemUntil (gen cfg (k + 1)) ty lim none (att + 1) st
      = (.error (.noIDs ns), st) := by
  unfold generateItemUntil
  rw [gen_ref_empty_fail cfg ns ty k lim st hty hg]

/-- The slot loop propagates the "no IDs" abandon error of its first
slot: only `ErrNoValidValue` results are skipped, other abandon-class
errors abort the whole array. -/
theorem arrayLoop_ref_empty_fail (cfg : GenCfg) (ns ty : String) (k : Nat)
    (lim : Option LimitTree) (m : Nat) (acc : List Value) (st : GenState)
    (hty : alookup cfg.Template.Types ty = some (.ref ns))
    (hg : alookup st.nameSpaces ns = some ⟨[], []⟩) :
    arrayLoop (gen cfg (k + 1)) ty lim false (m + 1) acc st
      = (.error (.noIDs ns), st) := by
  unfold arrayLoop
  have h10 : (10 : Nat) = 9 + 1 := rfl
  rw [if_neg (show ¬ (false = true) from by simp)]
  dsimp only
  rw [h10, itemUntil_ref_empty_fail cfg ns ty k lim 9 st hty hg]
  dsimp only [GErr.isNoValidValue]
  rw [if_neg (show ¬ (false = true) from by simp)]

/-- C2 counterexample: the concrete scenario — an array with
`minItems = 5` whose item type always abandons (a reference into a
namespace that never receives values) — makes `Generate` fail with
that abandon cause, the "no IDs in namespace" error, which is not
`ErrNoValidValue`. -/
theorem C2_counterexample :
    (Generate (mkCfg tmplRefArr) rng0).1 = .error (.noIDs "g") ∧
    GErr.noIDs "g" ≠ GErr.noValidValue :=
  ⟨rfl, by decide⟩

/-- C2 (amended): for every random stream, `Generate` on the
minItems-5 array of always-abandoning reference items fails with the
abandon-class cause itself (`ErrBranchAbandoned`-wrapping "no IDs in
namespace g"), not with `ErrNoValidValue`, and returns no partial
array: only a slot whose attempts end in `ErrNoValidValue` is skipped
at the array-slot level; other abandon-class item errors propagate. -/
theorem C2_abandon_cause_propagates (s : Nat → Nat) (p : Nat) :
    (Generate (mkCfg tmplRefArr) ⟨s, p⟩).1 = .error (.noIDs "g") ∧
    (GErr.noIDs "g").isAbandoned = true ∧
    GErr.noIDs "g" ≠ GErr.noValidValue := by
  refine ⟨?_, rfl, by decide⟩
  set cfg := mkCfg tmplRefArr with hcfg
  have h25 : gen cfg 25 = genStep cfg (gen cfg 24) (gen cfg 23) := rfl
  have hrootName : cfg.Template.Root = "root" := rfl
  have hroot : alookup cfg.Template.Types "root" = some (.array "r" 5 5 false) := rfl
  have hr : alookup cfg.Template.Types "r" = some (.ref "g") := rfl
  have hfms : cfg.ForceMaxSize = false := rfl
  have htn : ((25 : Int)).toNat = 25 := rfl
  have htn5 : ((5 : Int)).toNat = 4 + 1 := rfl
  have hs1 : ("root" = "r") = False := by simp
  have hs2 : ("g" = "g") = True := by simp
  simp only [Generate, generateNode, htn, h25, genStep, instantiate, randomArray,
    randomArrayLoopPart, generateItemUntil, generateReference,
    hasNSValues, numNSValues, getNamespace, newRefCell, adNSRef, addNSValue,
    hrootName, hroot, hr, hfms, nsEntry, initState, alookup, hs1, hs2,
    Rng.intN, Rng.next, Nat.mod_one, GErr.isAbandoned, GErr.isNoValidValue,
    if_true, if_false]
  norm_num
  rw [show (23 : Nat) = 22 + 1 from rfl, htn5,
    arrayLoop_ref_empty_fail cfg "g" "r" 22 (some (arrayLimits cfg.Limits)) 4 []
      ⟨⟨s, p + 1⟩, [("g", ⟨[], []⟩)], [], []⟩ hr rfl]
  rfl

/-! ## C3 — ledger invariants -/


theorem StLe.refl (st : GenState) : StLe st st :=
  ⟨List.prefix_refl _, fun _ => ⟨List.prefix_refl _, List.prefix_refl _⟩⟩

theorem StLe.trans {st₁ st₂ st₃ : GenState} (h₁ : StLe st₁ st₂) (h₂ : StLe st₂ st₃) :
    StLe st₁ st₃ :=
  ⟨h₁.1.trans h₂.1, fun ns =>
    ⟨(h₁.2 ns).1.trans (h₂.2 ns).1, (h₁.2 ns).2.trans (h₂.2 ns).2⟩⟩


/-- States with equal ledgers share the invariant. -/
theorem StInv_ext {st st' : GenState} (hns : st'.nameSpaces = st.nameSpaces)
    (hrc : st'.refCells = st.refCells) (h : StInv st) : StInv st' := by
  have he : ∀ ns, nsEntry st' ns = nsEntry st ns := by
    intro ns
    unfold nsEntry
    rw [hns]
  refine ⟨?_, ?_, ?_, ?_⟩
  · intro ns i hi
    rw [he] at hi
    obtain ⟨c, h1, h2, h3, h4⟩ := h.cells ns i hi
    exact ⟨c, by rw [hrc]; exact h1, h2, by rw [he]; exact h3, by rw [he]; exact h4⟩
  · intro ns ns' i hi hi'
    rw [he] at hi hi'
    exact h.uniq ns ns' i hi hi'
  · intro ns
    rw [he]
    exact h.nodup ns
  · rw [hns]
    exact h.keys

theorem StLe_ext {st st' : GenState} (hns : st'.nameSpaces = st.nameSpaces)
    (hrc : st.refCells <+: st'.refCells) : StLe st st' := by
  have he : ∀ ns, nsEntry st' ns = nsEntry st ns := by
    intro ns
    unfold nsEntry
    rw [hns]
  exact ⟨hrc, fun ns => ⟨by rw [he], by rw [he]⟩⟩

/-- Cell lookups are stable under ledger growth. -/
theorem getElem?_of_prefix {l l' : List α} (h : l <+: l') {i : Nat} {c : α}
    (hc : l[i]? = some c) : l'[i]? = some c := by
  obtain ⟨t, rfl⟩ := h
  have hilt : i < l.length := by
    by_contra hge
    rw [List.getElem?_eq_none (by omega)] at hc
    exact Option.noConfusion hc
  rw [List.getElem?_append, if_pos hilt]
  exact hc

/-- Registration is stable under ledger growth. -/
theorem registeredIn_mono {st st' : GenState} (h : StLe st st') {i : Nat} {ns : String}
    (hr : registeredIn st i ns) : registeredIn st' i ns :=
  (h.2 ns).2.subset hr

/-- The invariant survives the snapshot restore performed on
abandon-class errors: the namespaces revert to the entry state while
the cells keep growing. -/
theorem StInv_restore {st st'' : GenState} (hinv : StInv st) (hle : StLe st st'') :
    StInv { st'' with nameSpaces := st.nameSpaces } := by
  have he : ∀ ns, nsEntry { st'' with nameSpaces := st.nameSpaces } ns = nsEntry st ns := by
    intro ns
    unfold nsEntry
    rfl
  refine ⟨?_, ?_, ?_, ?_⟩
  · intro ns i hi
    rw [he] at hi
    obtain ⟨c, h1, h2, h3, h4⟩ := hinv.cells ns i hi
    exact ⟨c, getElem?_of_prefix hle.1 h1, h2, by rw [he]; exact h3, by rw [he]; exact h4⟩
  · intro ns ns' i hi hi'
    rw [he] at hi hi'
    exact hinv.uniq ns ns' i hi hi'
  · intro ns
    rw [he]
    exact hinv.nodup ns
  · exact hinv.keys

/-- Restores also keep the ledger-growth relation from the entry
state. -/
theorem StLe_restore {st st'' : GenState} (hle : StLe st st'') :
    StLe st { st'' with nameSpaces := st.nameSpaces } := by
  refine StLe_ext rfl hle.1


theorem refIdsList_append (a b : List Value) :
    refIdsList (a ++ b) = refIdsList a ++ refIdsList b := by
  induction a with
  | nil => simp [refIdsList]
  | cons x rest ih => simp [refIdsList, ih]

theorem refIdsFields_aset (acc : List (String × Value)) (k : String) (v : Value) :
    ∀ i ∈ refIdsFields (aset acc k v), i ∈ refIds v ∨ i ∈ refIdsFields acc := by
  induction acc with
  | nil =>
    intro i hi
    simp only [aset, refIdsFields] at hi
    simp only [refIdsFields, List.append_nil] at hi
    exact Or.inl hi
  | cons p rest ih =>
    intro i hi
    obtain ⟨k₀, v₀⟩ := p
    by_cases h : k₀ = k
    · simp only [aset, if_pos h, refIdsFields] at hi
      rcases List.mem_append.mp hi with h1 | h1
      · exact Or.inl h1
      · exact Or.inr (by simp [refIdsFields]; exact Or.inr h1)
    · simp only [aset, if_neg h, refIdsFields] at hi
      rcases List.mem_append.mp hi with h1 | h1
      · exact Or.inr (by simp [refIdsFields]; exact Or.inl h1)
      · rcases ih i h1 with h2 | h2
        · exact Or.inl h2
        · exact Or.inr (by simp [refIdsFields]; exact Or.inr h2)

/-- A step that only changes the random cursor and the file cache
satisfies the contract vacuously for scalar results. -/
theorem StepOK_pure (st : GenState) (res : Except GErr Value × GenState)
    (hns : res.2.nameSpaces = st.nameSpaces) (hrc : res.2.refCells = st.refCells)
    (hval : ∀ v, res.1 = .ok v → refIds v = []) : StepOK st res := by
  refine ⟨StLe_ext hns (hrc ▸ List.prefix_refl _), fun h => StInv_ext hns hrc h, ?_⟩
  intro _ v hv i hi
  rw [hval v hv] at hi
  exact absurd hi (List.not_mem_nil i)

theorem randomString_ledger (mn mx : Int) (st : GenState) :
    (randomString mn mx st).2.nameSpaces = st.nameSpaces ∧
    (randomString mn mx st).2.refCells = st.refCells := by
  unfold randomString
  rcases h : st.rng.intN ((if mx < 0 then (if mn < 0 then 0 else mn) + 10 else mx)
      - (if mn < 0 then 0 else mn) + 1) with _ | ⟨d, r'⟩ <;> simp [h]

theorem loremIpsum_ledger (mn mx : Int) (u : LoremUnit) (st : GenState) :
    (loremIpsum mn mx u st).2.nameSpaces = st.nameSpaces ∧
    (loremIpsum mn mx u st).2.refCells = st.refCells := by
  unfold loremIpsum
  rcases h : st.rng.intN ((if mx < 0 then (if mn < 0 then 0 else mn) + 10 else mx)
      - (if mn < 0 then 0 else mn)) with _ | ⟨d, r'⟩ <;> simp [h, Rng.next]

theorem bookGo_ledger (fs : String → Option String) (mn mx : Int) (path : String)
    (st : GenState) :
    (bookGo fs mn mx path st).2.nameSpaces = st.nameSpaces ∧
    (bookGo fs mn mx path st).2.refCells = st.refCells := by
  unfold bookGo
  rcases h : st.rng.intN ((if mx < 0 then (if mn < 0 then 0 else mn) + 10 else mx)
      - (if mn < 0 then 0 else mn)) with _ | ⟨d, r'⟩
  · simp [h]
  · simp only [h]
    rcases h2 : alookup st.fileCache path with _ | c
    · rcases h3 : fs path with _ | c'
      · simp [h2, h3]
      · simp [h2, h3]
    · simp [h2]

theorem alookup_none_not_mem {l : List (String × α)} {k : String}
    (h : alookup l k = none) : k ∉ l.map Prod.fst := by
  induction l with
  | nil => simp
  | cons p rest ih =>
    obtain ⟨k₀, v₀⟩ := p
    by_cases h0 : k₀ = k
    · simp [alookup, h0] at h
    · simp only [alookup, if_neg h0] at h
      simp only [List.map_cons, List.mem_cons]
      rintro (h1 | h1)
      · exact h0 h1.symm
      · exact ih h h1

theorem aset_map_fst_present {l : List (String × α)} {k : String} {e : α}
    (h : alookup l k = some e) (v : α) :
    (aset l k v).map Prod.fst = l.map Prod.fst := by
  induction l with
  | nil => simp [alookup] at h
  | cons p rest ih =>
    obtain ⟨k₀, v₀⟩ := p
    by_cases h0 : k₀ = k
    · simp [aset, h0]
    · simp only [alookup, if_neg h0] at h
      simp [aset, h0, ih h]

/-- Pointwise form of ledger-equality transfer for the invariant. -/
theorem StInv_ptwise {st st' : GenState}
    (he : ∀ ns, nsEntry st' ns = nsEntry st ns)
    (hrc : st'.refCells = st.refCells)
    (hkeys : (st'.nameSpaces.map Prod.fst).Nodup) (h : StInv st) : StInv st' := by
  refine ⟨?_, ?_, ?_, hkeys⟩
  · intro ns i hi
    rw [he] at hi
    obtain ⟨c, h1, h2, h3, h4⟩ := h.cells ns i hi
    exact ⟨c, by rw [hrc]; exact h1, h2, by rw [he]; exact h3, by rw [he]; exact h4⟩
  · intro ns ns' i hi hi'
    rw [he] at hi hi'
    exact h.uniq ns ns' i hi hi'
  · intro ns
    rw [he]
    exact h.nodup ns

theorem StLe_ptwise {st st' : GenState}
    (he : ∀ ns, nsEntry st' ns = nsEntry st ns)
    (hrc : st.refCells <+: st'.refCells) : StLe st st' :=
  ⟨hrc, fun ns => ⟨by rw [he], by rw [he]⟩⟩

/-- `getNamespace` preserves key uniqueness. -/
theorem getNamespace_keys {st : GenState} (ns : String)
    (h : (st.nameSpaces.map Prod.fst).Nodup) :
    ((getNamespace st ns).2.nameSpaces.map Prod.fst).Nodup := by
  unfold getNamespace
  cases hl : alookup st.nameSpaces ns with
  | some e => simpa using h
  | none =>
    simp only [List.map_append, List.map_cons, List.map_nil]
    rw [List.nodup_append]
    exact ⟨h, List.nodup_singleton ns, by
      intro a ha
      simp only [List.mem_singleton]
      intro hb
      exact alookup_none_not_mem hl (hb ▸ ha)⟩

/-- Registered ids point below the cell arena's end. -/
theorem mem_refs_lt {st : GenState} (h : StInv st) {ns : String} {i : Nat}
    (hi : i ∈ (nsEntry st ns).Refs) : i < st.refCells.length := by
  obtain ⟨c, h1, _⟩ := h.cells ns i hi
  by_contra hge
  rw [List.getElem?_eq_none (by omega)] at h1
  exact Option.noConfusion h1

/-- `addNSValue` grows the ledger and preserves the invariant. -/
theorem addNSValue_ok (st : GenState) (ns v : String) :
    StLe st (addNSValue st ns v) ∧ (StInv st → StInv (addNSValue st ns v)) := by
  have hself := addNSValue_nsEntry_self st ns v
  have hother := fun ns' (h : ns' ≠ ns) => addNSValue_nsEntry_other st ns ns' v h
  have hrc := addNSValue_refCells st ns v
  constructor
  · refine ⟨hrc ▸ List.prefix_refl _, ?_⟩
    intro ns'
    by_cases h : ns' = ns
    · subst h
      rw [hself]
      exact ⟨List.prefix_append _ _, List.prefix_refl _⟩
    · rw [hother ns' h]
      exact ⟨List.prefix_refl _, List.prefix_refl _⟩
  · intro hinv
    have hkeys : ((addNSValue st ns v).nameSpaces.map Prod.fst).Nodup := by
      unfold addNSValue
      rw [show (getNamespace st ns) = ((getNamespace st ns).1, (getNamespace st ns).2)
        from rfl]
      dsimp only
      rw [aset_map_fst_present (getNamespace_present st ns)]
      exact getNamespace_keys ns hinv.keys
    refine ⟨?_, ?_, ?_, hkeys⟩
    · intro ns' i hi
      by_cases h : ns' = ns
      · subst h
        rw [hself] at hi ⊢
        obtain ⟨c, h1, h2, h3, h4⟩ := hinv.cells ns' i hi
        refine ⟨c, hrc ▸ h1, h2, ?_, ?_⟩
        · intro _
          simp
        · intro hL
          have := h4 hL
          simp only [List.length_append, List.length_cons, List.length_nil]
          push_cast
          omega
      · rw [hother ns' h] at hi ⊢
        obtain ⟨c, h1, h2, h3, h4⟩ := hinv.cells ns' i hi
        exact ⟨c, hrc ▸ h1, h2, h3, h4⟩
    · intro ns₁ ns₂ i hi hi'
      have e1 : i ∈ (nsEntry st ns₁).Refs := by
        by_cases h : ns₁ = ns
        · subst h; rw [hself] at hi; exact hi
        · rw [hother ns₁ h] at hi; exact hi
      have e2 : i ∈ (nsEntry st ns₂).Refs := by
        by_cases h : ns₂ = ns
        · subst h; rw [hself] at hi'; exact hi'
        · rw [hother ns₂ h] at hi'; exact hi'
      exact hinv.uniq ns₁ ns₂ i e1 e2
    · intro ns'
      by_cases h : ns' = ns
      · subst h; rw [hself]; exact hinv.nodup ns'
      · rw [hother ns' h]; exact hinv.nodup ns'

theorem nsEntry_eq_of_nameSpaces {st st' : GenState}
    (h : st'.nameSpaces = st.nameSpaces) : ∀ x, nsEntry st' x = nsEntry st x := by
  intro x
  unfold nsEntry
  rw [h]

/-- Registering a fresh reference cell (arity `len`) under a namespace
whose entry satisfies the arity bound: the combined
`getNamespace`/`newRefCell`/`adNSRef` step grows the ledger, preserves
the invariant, and registers the fresh id.  `st₀` is the state after
the initial `getNamespace` (possibly with a different cursor). -/
theorem registerFreshRef_ok (st st₀ : GenState) (ns : String) (len : Int)
    (hns : st₀.nameSpaces = (getNamespace st ns).2.nameSpaces)
    (hrc : st₀.refCells = st.refCells)
    (hneg : len < 0 → 1 ≤ (nsEntry st ns).Values.length)
    (hpos : 0 ≤ len → len ≤ ((nsEntry st ns).Values.length : Int)) :
    StLe st (adNSRef { st₀ with refCells := st₀.refCells ++ [⟨ns, len⟩] } ns
        st₀.refCells.length) ∧
    (StInv st → StInv (adNSRef { st₀ with refCells := st₀.refCells ++ [⟨ns, len⟩] } ns
        st₀.refCells.length)) ∧
    registeredIn (adNSRef { st₀ with refCells := st₀.refCells ++ [⟨ns, len⟩] } ns
        st₀.refCells.length) st₀.refCells.length ns := by
  set stN : GenState := { st₀ with refCells := st₀.refCells ++ [⟨ns, len⟩] } with hstN
  set i := st₀.refCells.length with hi
  have hNx : ∀ x, nsEntry stN x = nsEntry st x := by
    intro x
    have h1 : nsEntry stN x = nsEntry (getNamespace st ns).2 x :=
      nsEntry_eq_of_nameSpaces (by rw [hstN]; exact hns) x
    rw [h1, getNamespace_nsEntry]
  have hFself : nsEntry (adNSRef stN ns i) ns
      = { nsEntry st ns with Refs := (nsEntry st ns).Refs ++ [i] } := by
    rw [adNSRef_nsEntry_self, hNx]
  have hFother : ∀ x, x ≠ ns → nsEntry (adNSRef stN ns i) x = nsEntry st x := by
    intro x hx
    rw [adNSRef_nsEntry_other _ _ _ _ hx, hNx]
  have hFrc : (adNSRef stN ns i).refCells = st.refCells ++ [⟨ns, len⟩] := by
    rw [adNSRef_refCells, hstN]
    simp [hrc]
  refine ⟨?_, ?_, ?_⟩
  · refine ⟨?_, ?_⟩
    · rw [hFrc]
      exact List.prefix_append _ _
    · intro x
      by_cases hx : x = ns
      · subst hx
        rw [hFself]
        exact ⟨List.prefix_refl _, List.prefix_append _ _⟩
      · rw [hFother x hx]
        exact ⟨List.prefix_refl _, List.prefix_refl _⟩
  · intro hinv
    have hilen : i = st.refCells.length := by rw [hi, hrc]
    have hfreshAll : ∀ x, i ∉ (nsEntry st x).Refs := by
      intro x hmem
      have := mem_refs_lt hinv hmem
      omega
    have hcellNew : (adNSRef stN ns i).refCells[i]? = some ⟨ns, len⟩ := by
      rw [hFrc, hilen]
      exact List.getElem?_concat_length _ _
    refine ⟨?_, ?_, ?_, ?_⟩
    · intro x j hj
      by_cases hx : x = ns
      · subst hx
        rw [hFself] at hj ⊢
        rcases List.mem_append.mp hj with hj | hj
        · obtain ⟨c, h1, h2, h3, h4⟩ := hinv.cells x j hj
          exact ⟨c, getElem?_of_prefix (hFrc ▸ List.prefix_append _ _) h1, h2, h3, h4⟩
        · rw [List.mem_singleton] at hj
          subst hj
          exact ⟨⟨x, len⟩, hcellNew, rfl, fun h => hneg h, fun h => hpos h⟩
      · rw [hFother x hx] at hj ⊢
        obtain ⟨c, h1, h2, h3, h4⟩ := hinv.cells x j hj
        exact ⟨c, getElem?_of_prefix (hFrc ▸ List.prefix_append _ _) h1, h2, h3, h4⟩
    · intro x y j hjx hjy
      have hmem : ∀ z, j ∈ (nsEntry (adNSRef stN ns i) z).Refs →
          j ∈ (nsEntry st z).Refs ∨ (j = i ∧ z = ns) := by
        intro z hz
        by_cases hzz : z = ns
        · subst hzz
          rw [hFself] at hz
          rcases List.mem_append.mp hz with h1 | h1
          · exact Or.inl h1
          · exact Or.inr ⟨List.mem_singleton.mp h1, rfl⟩
        · rw [hFother z hzz] at hz
          exact Or.inl hz
      rcases hmem x hjx with h1 | ⟨rfl, rfl⟩
      · rcases hmem y hjy with h2 | ⟨h2, rfl⟩
        · exact hinv.uniq x y j h1 h2
        · exact absurd h1 (h2 ▸ hfreshAll x)
      · rcases hmem y hjy with h2 | ⟨_, rfl⟩
        · exact absurd h2 (hfreshAll y)
        · rfl
    · intro x
      by_cases hx : x = ns
      · subst hx
        rw [hFself]
        simp only [List.nodup_append, List.nodup_singleton]
        exact ⟨hinv.nodup x, by simp, by
          intro a ha
          simp only [List.mem_singleton]
          intro hb
          exact hfreshAll x (hb ▸ ha)⟩
      · rw [hFother x hx]
        exact hinv.nodup x
    · have h2 : stN.nameSpaces = (getNamespace st ns).2.nameSpaces := by
        rw [hstN]
        exact hns
      have hpres : alookup stN.nameSpaces ns = some (nsEntry st ns) := by
        rw [h2]
        exact getNamespace_present st ns
      have hGN2 : (getNamespace stN ns).2 = stN := by
        unfold getNamespace
        rw [hpres]
      have h1 : (adNSRef stN ns i).nameSpaces.map Prod.fst
          = stN.nameSpaces.map Prod.fst := by
        unfold adNSRef
        rw [show (getNamespace stN ns) = ((getNamespace stN ns).1, (getNamespace stN ns).2)
          from rfl]
        dsimp only
        rw [hGN2]
        exact aset_map_fst_present hpres _
      rw [h1, h2]
      exact getNamespace_keys ns hinv.keys
  · rw [registeredIn, hFself]
    simp

/-! ## C3 — the generation-side contract -/

/-- `generateReference` satisfies the step contract: the fresh
aggregate cell is registered under its namespace. -/
theorem generateReference_ok (ns : String) (st : GenState) :
    StepOK st (generateReference ns st) := by
  unfold generateReference
  rw [show hasNSValues st ns = ((hasNSValues st ns).1, (hasNSValues st ns).2) from rfl,
    hasNSValues_fst, hasNSValues_snd]
  dsimp only
  by_cases hv : (nsEntry st ns).Values.length > 0
  · rw [if_pos (by simpa using hv)]
    dsimp only [newRefCell]
    obtain ⟨hle, hinv, hreg⟩ := registerFreshRef_ok st (getNamespace st ns).2 ns (-1)
      rfl (getNamespace_refCells st ns) (fun _ => hv) (by omega)
    refine ⟨hle, hinv, ?_⟩
    intro _ v hvv i hi
    have hveq : v = .ref (getNamespace st ns).2.refCells.length := by
      injection hvv.symm with h
    subst hveq
    simp only [refIds, List.mem_singleton] at hi
    subst hi
    exact ⟨ns, hreg⟩
  · rw [if_neg (by simpa using hv)]
    refine ⟨StLe_ptwise (getNamespace_nsEntry st ns)
        ((getNamespace_refCells st ns) ▸ List.prefix_refl _),
      fun h => StInv_ptwise (getNamespace_nsEntry st ns) (getNamespace_refCells st ns)
        (getNamespace_keys ns h.keys) h, ?_⟩
    intro _ v hvv
    simp at hvv

/-- The step contract composes across an intermediate state. -/
theorem StepOK_comp {st st' : GenState} {res : Except GErr Value × GenState}
    (h1 : StLe st st') (h2 : StInv st → StInv st') (h3 : StepOK st' res) :
    StepOK st res :=
  ⟨h1.trans h3.1, fun h => h3.2.1 (h2 h), fun h v hv => h3.2.2 (h2 h) v hv⟩

/-- `generateID` grows the ledger and preserves its invariant. -/
theorem generateID_ok (ns : String) (st : GenState) :
    StLe st (generateID ns st).2 ∧ (StInv st → StInv (generateID ns st).2) := by
  unfold generateID
  rcases hrs : randomString 1 20 st with ⟨res, st'⟩
  have hld := randomString_ledger 1 20 st
  rw [hrs] at hld
  cases res with
  | ok id =>
    dsimp only
    have h1 : StLe st st' :=
      StLe_ptwise (nsEntry_eq_of_nameSpaces hld.1) (hld.2 ▸ List.prefix_refl _)
    have h2 := addNSValue_ok st' ns id
    exact ⟨h1.trans h2.1, fun h => (h2.2 (StInv_ext hld.1 hld.2 h))⟩
  | error e =>
    dsimp only
    exact ⟨StLe_ptwise (nsEntry_eq_of_nameSpaces hld.1) (hld.2 ▸ List.prefix_refl _),
      fun h => StInv_ext hld.1 hld.2 h⟩

/-- The retry loop of array slots inherits the step contract from the
item child. -/
theorem generateItemUntil_ok {child : GenFun} (hc : GenOK child) (ty : String)
    (lim : Option LimitTree) (cond : Option (GenState → Value → Bool)) :
    ∀ (att : Nat) (st : GenState),
      StepOK st (generateItemUntil child ty lim cond att st) := by
  intro att
  induction att with
  | zero =>
    intro st
    exact ⟨StLe.refl st, fun h => h, by intro _ v hv; simp [generateItemUntil] at hv⟩
  | succ n ih =>
    intro st
    unfold generateItemUntil
    rcases hcall : child ty lim st with ⟨res, st'⟩
    have hstep := hc ty lim st
    rw [hcall] at hstep
    cases res with
    | error e => exact hstep
    | ok item =>
      dsimp only
      cases cond with
      | none => exact hstep
      | some c =>
        dsimp only
        by_cases hcnd : c st' item = true
        · rw [if_pos hcnd]
          exact hstep
        · rw [if_neg hcnd]
          exact StepOK_comp hstep.1 hstep.2.1 (ih st')

/-- Advancing only the random cursor before a contract-satisfying step
keeps the contract. -/
theorem StepOK_rng (st : GenState) (r' : Rng) {res : Except GErr Value × GenState}
    (h : StepOK { st with rng := r' } res) : StepOK st res := by
  refine StepOK_comp ?_ ?_ h
  · exact StLe_ptwise (fun _ => rfl) (List.prefix_refl _)
  · intro hinv
    refine StInv_ext ?_ ?_ hinv <;> rfl

/-- The slot loop of `randomArray`: ledger growth, invariant
preservation, and registration of every reference handle in the
produced items (given the handles already in `acc` are registered). -/
theorem arrayLoop_ok {itemChild : GenFun} (hic : GenOK itemChild)
    (itemsTy : String) (limits : Option LimitTree) (unique : Bool) :
    ∀ (slots : Nat) (acc : List Value) (st : GenState),
      StLe st (arrayLoop itemChild itemsTy limits unique slots acc st).2 ∧
      (StInv st → StInv (arrayLoop itemChild itemsTy limits unique slots acc st).2) ∧
      (StInv st → (∀ i ∈ refIdsList acc, ∃ ns, registeredIn st i ns) →
        ∀ items, (arrayLoop itemChild itemsTy limits unique slots acc st).1 = .ok items →
        ∀ i ∈ refIdsList items,
          ∃ ns, registeredIn (arrayLoop itemChild itemsTy limits unique slots acc st).2 i ns) := by
  intro slots
  induction slots with
  | zero =>
    intro acc st
    refine ⟨StLe.refl st, fun h => h, ?_⟩
    intro _ hacc items hit
    simp only [arrayLoop] at hit ⊢
    injection hit with h
    subst h
    exact hacc
  | succ n ih =>
    intro acc st
    simp only [arrayLoop]
    rcases hcall : generateItemUntil itemChild itemsTy limits
        (if unique then some (fun s v => ¬ acc.any (fun item => deepEqualGo s.refCells item v))
         else none) 10 st with ⟨res, st'⟩
    have hstep := generateItemUntil_ok hic itemsTy limits
      (if unique then some (fun s v => ¬ acc.any (fun item => deepEqualGo s.refCells item v))
       else none) 10 st
    rw [hcall] at hstep
    cases res with
    | error e =>
      dsimp only
      by_cases hnv : e.isNoValidValue = true
      · rw [if_pos hnv]
        obtain ⟨ihle, ihinv, ihreg⟩ := ih acc st'
        refine ⟨hstep.1.trans ihle, fun h => ihinv (hstep.2.1 h), ?_⟩
        intro h hacc items hit i hi
        exact ihreg (hstep.2.1 h)
          (fun j hj => (hacc j hj).imp (fun ns => registeredIn_mono hstep.1)) items hit i hi
      · rw [if_neg hnv]
        exact ⟨hstep.1, hstep.2.1, by intro _ _ items hit; simp at hit⟩
    | ok item =>
      dsimp only
      obtain ⟨ihle, ihinv, ihreg⟩ := ih (acc ++ [item]) st'
      refine ⟨hstep.1.trans ihle, fun h => ihinv (hstep.2.1 h), ?_⟩
      intro h hacc items hit i hi
      refine ihreg (hstep.2.1 h) ?_ items hit i hi
      intro j hj
      rw [refIdsList_append] at hj
      rcases List.mem_append.mp hj with hj | hj
      · exact (hacc j hj).imp (fun ns => registeredIn_mono hstep.1)
      · refine hstep.2.2 h item rfl j ?_
        simpa [refIdsList] using hj

/-- The required-property loop satisfies the object-level contract. -/
theorem requiredLoop_ok {child : GenFun} (hc : GenOK child) (limits : Option LimitTree) :
    ∀ (ps : List PropertyT) (acc : List (String × Value)) (st : GenState),
      StLe st (requiredLoop child limits ps acc st).2 ∧
      (StInv st → StInv (requiredLoop child limits ps acc st).2) ∧
      (StInv st → (∀ i ∈ refIdsFields acc, ∃ ns, registeredIn st i ns) →
        ∀ fields, (requiredLoop child limits ps acc st).1 = .ok fields →
        ∀ i ∈ refIdsFields fields,
          ∃ ns, registeredIn (requiredLoop child limits ps acc st).2 i ns) := by
  intro ps
  induction ps with
  | nil =>
    intro acc st
    refine ⟨StLe.refl st, fun h => h, ?_⟩
    intro _ hacc fields hit
    simp only [requiredLoop] at hit ⊢
    injection hit with h
    subst h
    exact hacc
  | cons p rest ih =>
    intro acc st
    simp only [requiredLoop]
    rcases hcall : child p.Type' (descendL limits p.Name) st with ⟨res, st'⟩
    have hstep := hc p.Type' (descendL limits p.Name) st
    rw [hcall] at hstep
    cases res with
    | error e =>
      dsimp only
      exact ⟨hstep.1, hstep.2.1, by intro _ _ fields hit; simp at hit⟩
    | ok v =>
      dsimp only
      obtain ⟨ihle, ihinv, ihreg⟩ := ih (aset acc p.Name v) st'
      refine ⟨hstep.1.trans ihle, fun h => ihinv (hstep.2.1 h), ?_⟩
      intro h hacc fields hit i hi
      refine ihreg (hstep.2.1 h) ?_ fields hit i hi
      intro j hj
      rcases refIdsFields_aset acc p.Name v j hj with hj | hj
      · exact hstep.2.2 h v rfl j hj
      · exact (hacc j hj).imp (fun ns => registeredIn_mono hstep.1)

/-- The optional-property loop satisfies the object-level contract. -/
theorem optionalLoop_ok {child : GenFun} (hc : GenOK child) (limits : Option LimitTree) :
    ∀ (fuel : Nat) (optional : List PropertyT) (extra : Int)
      (props : List (String × Value)) (ba : Option GErr) (st : GenState),
      StLe st (optionalLoop child limits fuel optional extra props ba st).2 ∧
      (StInv st → StInv (optionalLoop child limits fuel optional extra props ba st).2) ∧
      (StInv st → (∀ i ∈ refIdsFields props, ∃ ns, registeredIn st i ns) →
        ∀ pr, (optionalLoop child limits fuel optional extra props ba st).1 = .ok pr →
        ∀ i ∈ refIdsFields pr.1,
          ∃ ns, registeredIn (optionalLoop child limits fuel optional extra props ba st).2 i ns) := by
  intro fuel
  induction fuel with
  | zero =>
    intro optional extra props ba st
    simp only [optionalLoop]
    by_cases hg : extra > 0 ∧ optional.length > 0
    · rw [if_pos hg]
      refine ⟨StLe.refl st, fun h => h, ?_⟩
      intro _ hacc pr hit
      injection hit with h
      subst h
      exact hacc
    · rw [if_neg hg]
      refine ⟨StLe.refl st, fun h => h, ?_⟩
      intro _ hacc pr hit
      injection hit with h
      subst h
      exact hacc
  | succ n ih =>
    intro optional extra props ba st
    simp only [optionalLoop]
    by_cases hg : extra > 0 ∧ optional.length > 0
    · rw [if_pos hg]
      rcases hdraw : st.rng.intN (optional.length : Int) with _ | ⟨i, r'⟩
      · refine ⟨StLe.refl st, fun h => h, ?_⟩
        intro _ _ pr hit
        simp at hit
      · dsimp only
        rcases hcall : child (optional.getD i ⟨"", "", false⟩).Type'
            (descendL limits (optional.getD i ⟨"", "", false⟩).Name)
            { st with rng := r' } with ⟨res, st'⟩
        have hstep : StepOK st (res, st') := by
          have h0 := hc (optional.getD i ⟨"", "", false⟩).Type'
            (descendL limits (optional.getD i ⟨"", "", false⟩).Name) { st with rng := r' }
          rw [hcall] at h0
          exact StepOK_rng st r' h0
        cases res with
        | error e =>
          dsimp only
          by_cases hab : e.isAbandoned = true
          · rw [if_pos hab]
            obtain ⟨ihle, ihinv, ihreg⟩ := ih (optional.eraseIdx i) extra props (some e) st'
            refine ⟨hstep.1.trans ihle, fun h => ihinv (hstep.2.1 h), ?_⟩
            intro h hacc pr hit j hj
            exact ihreg (hstep.2.1 h)
              (fun k hk => (hacc k hk).imp (fun ns => registeredIn_mono hstep.1)) pr hit j hj
          · rw [if_neg hab]
            exact ⟨hstep.1, hstep.2.1, by intro _ _ pr hit; simp at hit⟩
        | ok v =>
          dsimp only
          obtain ⟨ihle, ihinv, ihreg⟩ := ih (optional.eraseIdx i) (extra - 1)
            (aset props (optional.getD i ⟨"", "", false⟩).Name v) ba st'
          refine ⟨hstep.1.trans ihle, fun h => ihinv (hstep.2.1 h), ?_⟩
          intro h hacc pr hit j hj
          refine ihreg (hstep.2.1 h) ?_ pr hit j hj
          intro k hk
          rcases refIdsFields_aset props (optional.getD i ⟨"", "", false⟩).Name v k hk with hk | hk
          · exact hstep.2.2 h v rfl k hk
          · exact (hacc k hk).imp (fun ns => registeredIn_mono hstep.1)
    · rw [if_neg hg]
      refine ⟨StLe.refl st, fun h => h, ?_⟩
      intro _ hacc pr hit
      injection hit with h
      subst h
      exact hacc

/-- The alternation candidate loop satisfies the step contract. -/
theorem oneOfLoop_ok {child : GenFun} (hc : GenOK child) (limits : Option LimitTree) :
    ∀ (tys : List String) (ab : Option GErr) (st : GenState),
      StepOK st (oneOfLoop child limits tys ab st) := by
  intro tys
  induction tys with
  | nil =>
    intro ab st
    refine ⟨?_, ?_, ?_⟩ <;> cases ab <;>
      first
        | exact StLe.refl st
        | exact fun h => h
        | (intro _ v hv; simp [oneOfLoop] at hv)
  | cons ty rest ih =>
    intro ab st
    simp only [oneOfLoop]
    rcases hcall : child ty limits st with ⟨res, st'⟩
    have hstep : StepOK st (res, st') := by
      have h0 := hc ty limits st
      rw [hcall] at h0
      exact h0
    cases res with
    | error e =>
      dsimp only
      by_cases hab : e.isAbandoned = true
      · rw [if_pos hab]
        exact StepOK_comp hstep.1 hstep.2.1 (ih (some e) st')
      · rw [if_neg hab]
        exact ⟨hstep.1, hstep.2.1, by intro _ v hv; simp at hv⟩
    | ok v =>
      dsimp only
      exact hstep

/-- `randomOneOf` satisfies the step contract. -/
theorem randomOneOf_ok {child : GenFun} (hc : GenOK child) (oneof : List String)
    (limits : Option LimitTree) (st : GenState) :
    StepOK st (randomOneOf child oneof limits st) := by
  unfold randomOneOf
  rw [show shuffleGo st.rng oneof = ((shuffleGo st.rng oneof).1, (shuffleGo st.rng oneof).2)
    from rfl]
  dsimp only
  exact StepOK_rng st _ (oneOfLoop_ok hc limits _ none _)

/-- The common tail of `randomArrayLoopPart` (slot loop plus the
`minitems` check) satisfies the step contract. -/
theorem arrayLoopPart_tail_ok {itemChild : GenFun} (hic : GenOK itemChild)
    (Items : String) (limits : Option LimitTree) (unique : Bool) (minitems : Int)
    (len : Nat) (st : GenState) :
    StepOK st (match arrayLoop itemChild Items limits unique len [] st with
      | (.error e, st') => (.error e, st')
      | (.ok items, st') =>
        if (items.length : Int) < minitems then (.error .noValidValue, st')
        else (.ok (.arr items), st')) := by
  rcases hal : arrayLoop itemChild Items limits unique len [] st with ⟨res, st'⟩
  obtain ⟨hle, hinv, hreg⟩ := arrayLoop_ok hic Items limits unique len [] st
  rw [hal] at hle hinv hreg
  cases res with
  | error e => exact ⟨hle, hinv, by intro _ v hv; simp at hv⟩
  | ok items =>
    dsimp only
    by_cases hlt : (items.length : Int) < minitems
    · rw [if_pos hlt]
      exact ⟨hle, hinv, by intro _ v hv; simp at hv⟩
    · rw [if_neg hlt]
      refine ⟨hle, hinv, ?_⟩
      intro h v hv i hi
      injection hv with hv
      subst hv
      refine hreg h (by intro j hj; simp [refIdsList] at hj) items rfl i ?_
      simpa [refIds] using hi

/-- `randomArrayLoopPart` satisfies the step contract. -/
theorem randomArrayLoopPart_ok {itemChild : GenFun} (hic : GenOK itemChild)
    (Items : String) (minitems maxitems : Int) (UniqueItems : Bool)
    (limits : Option LimitTree) (cfg : GenCfg) (st : GenState) :
    StepOK st (randomArrayLoopPart itemChild Items minitems maxitems UniqueItems
      limits cfg st) := by
  unfold randomArrayLoopPart
  by_cases hfms : cfg.ForceMaxSize = true
  · rw [if_pos hfms]
    dsimp only
    exact arrayLoopPart_tail_ok hic Items limits UniqueItems minitems maxitems.toNat st
  · rw [if_neg hfms]
    rcases hdraw : st.rng.intN (maxitems - minitems + 1) with _ | ⟨d, r'⟩
    · dsimp only
      exact ⟨StLe.refl st, fun h => h, by intro _ v hv; simp at hv⟩
    · dsimp only
      exact StepOK_rng st r'
        (arrayLoopPart_tail_ok hic Items limits UniqueItems minitems (minitems + d).toNat
          { st with rng := r' })

/-- `randomArray` satisfies the step contract; in the aggregate
short circuit the fresh cell's arity is within the value pool, so the
invariant is preserved and the emitted handle is registered. -/
theorem randomArray_ok {itemChild : GenFun} (hic : GenOK itemChild) (cfg : GenCfg)
    (Items : String) (MinItems MaxItems : Int) (UniqueItems : Bool)
    (limits : Option LimitTree) (st : GenState) :
    StepOK st (randomArray itemChild cfg Items MinItems MaxItems UniqueItems limits st) := by
  unfold randomArray
  rcases halk : alookup cfg.Template.Types Items with _ | node
  case none =>
    dsimp only
    exact randomArrayLoopPart_ok hic Items _ _ UniqueItems limits cfg st
  case some =>
    cases node
    case ref ns =>
      dsimp only
      rcases hnum : numNSValues st ns with ⟨known, st₂⟩
      have hknown : known = (nsEntry st ns).Values.length := by
        have := numNSValues_fst st ns
        rw [hnum] at this
        simpa using this
      have hst₂ : st₂ = (getNamespace st ns).2 := by
        have := numNSValues_snd st ns
        rw [hnum] at this
        simpa using this
      dsimp only
      by_cases hguard : (if MinItems < 0 then 0 else MinItems) ≤ (known : Int) ∧
          UniqueItems = true
      · rw [if_pos hguard]
        rcases hdraw : st₂.rng.intN ((known : Int) -
            (if MinItems < 0 then 0 else MinItems) + 1) with _ | ⟨d, r'⟩
        · dsimp only
          refine ⟨?_, ?_, by intro _ v hv; simp at hv⟩
          · exact StLe_ptwise (fun x => hst₂ ▸ getNamespace_nsEntry st ns x)
              (by rw [hst₂, getNamespace_refCells])
          · intro h
            exact StInv_ptwise (fun x => hst₂ ▸ getNamespace_nsEntry st ns x)
              (by rw [hst₂, getNamespace_refCells]) (hst₂ ▸ getNamespace_keys ns h.keys) h
        · dsimp only [newRefCell]
          have hdle : (d : Int) < (known : Int) - (if MinItems < 0 then 0 else MinItems) + 1 :=
            (intN_bound _ _ _ _ hdraw).2
          obtain ⟨hle, hinv, hreg⟩ := registerFreshRef_ok st { st₂ with rng := r' } ns
            ((if MinItems < 0 then 0 else MinItems) + d)
            (by rw [hst₂]) (by rw [hst₂, getNamespace_refCells])
            (by intro hlt; exfalso; revert hlt; split_ifs <;> omega)
            (by intro _; rw [hknown] at hguard hdle; revert hdle; omega)
          refine ⟨hle, hinv, ?_⟩
          intro _ v hvv i hi
          have hveq : v = .ref { st₂ with rng := r' }.refCells.length := by
            injection hvv.symm with h
          subst hveq
          simp only [refIds, List.mem_singleton] at hi
          subst hi
          exact ⟨ns, hreg⟩
      · rw [if_neg hguard]
        refine StepOK_comp ?_ ?_ (randomArrayLoopPart_ok hic Items _ _ UniqueItems limits cfg st₂)
        · exact StLe_ptwise (fun x => hst₂ ▸ getNamespace_nsEntry st ns x)
            (by rw [hst₂, getNamespace_refCells])
        · intro h
          exact StInv_ptwise (fun x => hst₂ ▸ getNamespace_nsEntry st ns x)
            (by rw [hst₂, getNamespace_refCells]) (hst₂ ▸ getNamespace_keys ns h.keys) h
    all_goals
      dsimp only
      exact randomArrayLoopPart_ok hic Items _ _ UniqueItems limits cfg st

/-- `generateObject` satisfies the step contract. -/
theorem generateObject_ok {child : GenFun} (hc : GenOK child)
    (Properties : List PropertyT) (MinProperties MaxProperties : Int)
    (limits : Option LimitTree) (st : GenState) :
    StepOK st (generateObject child Properties MinProperties MaxProperties limits st) := by
  unfold generateObject
  dsimp only
  rcases hreq : requiredLoop child limits (Properties.filter (·.Required)) [] st
    with ⟨rres, st₂⟩
  obtain ⟨rle, rinv, rreg⟩ := requiredLoop_ok hc limits (Properties.filter (·.Required)) [] st
  rw [hreq] at rle rinv rreg
  cases rres with
  | error e => exact ⟨rle, rinv, by intro _ v hv; simp at hv⟩
  | ok props =>
    dsimp only
    have hpropsreg : ∀ h : StInv st, ∀ i ∈ refIdsFields props,
        ∃ ns, registeredIn st₂ i ns := by
      intro h i hi
      exact rreg h (by intro j hj; simp [refIdsFields] at hj) props rfl i hi
    by_cases hgt : (if MaxProperties < 0 then (Properties.length : Int) else MaxProperties) >
        max MinProperties (props.length : Int)
    · rw [if_pos hgt]
      rcases hdrw : st₂.rng.intN
          ((if MaxProperties < 0 then (Properties.length : Int) else MaxProperties) -
            max MinProperties (props.length : Int) + 1) with _ | ⟨dd, r'⟩
      · dsimp only
        exact ⟨rle, rinv, by intro _ v hv; simp at hv⟩
      · dsimp only
        rcases hopt : optionalLoop child limits
            (Properties.filter (fun p => ¬ p.Required)).length
            (Properties.filter (fun p => ¬ p.Required))
            (max MinProperties (props.length : Int) - (props.length : Int) + (dd : Int))
            props none { st₂ with rng := r' } with ⟨ores, st₃⟩
        obtain ⟨ole, oinv, oreg⟩ := optionalLoop_ok hc limits
          (Properties.filter (fun p => ¬ p.Required)).length
          (Properties.filter (fun p => ¬ p.Required))
          (max MinProperties (props.length : Int) - (props.length : Int) + (dd : Int))
          props none { st₂ with rng := r' }
        rw [hopt] at ole oinv oreg
        have hle2 : StLe st₂ { st₂ with rng := r' } :=
          StLe_ptwise (fun _ => rfl) (List.prefix_refl _)
        have hinv2 : StInv st₂ → StInv { st₂ with rng := r' } := by
          intro h
          refine StInv_ext ?_ ?_ h <;> rfl
        cases ores with
        | error e =>
          exact ⟨rle.trans (hle2.trans ole), fun h => oinv (hinv2 (rinv h)),
            by intro _ v hv; simp at hv⟩
        | ok pr =>
          obtain ⟨props', ba⟩ := pr
          dsimp only
          by_cases hlt : (props'.length : Int) < max MinProperties (props.length : Int)
          · rw [if_pos hlt]
            cases ba <;>
              exact ⟨rle.trans (hle2.trans ole), fun h => oinv (hinv2 (rinv h)),
                by intro _ v hv; simp at hv⟩
          · rw [if_neg hlt]
            refine ⟨rle.trans (hle2.trans ole), fun h => oinv (hinv2 (rinv h)), ?_⟩
            intro h v hv i hi
            injection hv with hv
            subst hv
            refine oreg (hinv2 (rinv h)) ?_ (props', ba) rfl i ?_
            · intro j hj
              exact (hpropsreg h j hj).imp (fun ns hr => registeredIn_mono hle2 hr)
            · simpa [refIds] using hi
    · rw [if_neg hgt]
      dsimp only
      rcases hopt : optionalLoop child limits
          (Properties.filter (fun p => ¬ p.Required)).length
          (Properties.filter (fun p => ¬ p.Required))
          (max MinProperties (props.length : Int) - (props.length : Int))
          props none st₂ with ⟨ores, st₃⟩
      obtain ⟨ole, oinv, oreg⟩ := optionalLoop_ok hc limits
        (Properties.filter (fun p => ¬ p.Required)).length
        (Properties.filter (fun p => ¬ p.Required))
        (max MinProperties (props.length : Int) - (props.length : Int))
        props none st₂
      rw [hopt] at ole oinv oreg
      cases ores with
      | error e =>
        exact ⟨rle.trans ole, fun h => oinv (rinv h), by intro _ v hv; simp at hv⟩
      | ok pr =>
        obtain ⟨props', ba⟩ := pr
        dsimp only
        by_cases hlt : (props'.length : Int) < max MinProperties (props.length : Int)
        · rw [if_pos hlt]
          cases ba <;>
            exact ⟨rle.trans ole, fun h => oinv (rinv h), by intro _ v hv; simp at hv⟩
        · rw [if_neg hlt]
          refine ⟨rle.trans ole, fun h => oinv (rinv h), ?_⟩
          intro h v hv i hi
          injection hv with hv
          subst hv
          refine oreg (rinv h) (hpropsreg h) (props', ba) rfl i ?_
          simpa [refIds] using hi

/-- Dispatch: every template node's instantiation satisfies the step
contract when the child generators do. -/
theorem instantiate_ok {child itemChild : GenFun} (hc : GenOK child)
    (hi : GenOK itemChild) (cfg : GenCfg) (node : Tmpl) (limits : Option LimitTree)
    (st : GenState) : StepOK st (instantiate child itemChild cfg node limits st) := by
  cases node with
  | object props mn mx => exact generateObject_ok hc props mn mx limits st
  | array items mn mx uniq => exact randomArray_ok hi cfg items mn mx uniq limits st
  | oneOf oneof => exact randomOneOf_ok hc oneof limits st
  | str mn mx enum pat =>
    unfold instantiate
    dsimp only
    by_cases henum : enum.length > 0
    · rw [if_pos henum]
      rw [show chooseGo st.rng enum = ((chooseGo st.rng enum).1, (chooseGo st.rng enum).2)
        from rfl]
      dsimp only
      exact StepOK_pure st _ rfl rfl (by intro v hv; injection hv with hv; subst hv; rfl)
    · rw [if_neg henum]
      cases pat with
      | some ast =>
        dsimp only
        rcases hs : sampleAstNode ast ⟨st.rng, ""⟩ with _ | s
        · dsimp only
          exact StepOK_pure st _ rfl rfl (by intro v hv; simp at hv)
        · dsimp only
          exact StepOK_pure st _ rfl rfl (by intro v hv; injection hv with hv; subst hv; rfl)
      | none =>
        dsimp only
        rcases hrs : randomString mn mx st with ⟨res, st'⟩
        have hld := randomString_ledger mn mx st
        rw [hrs] at hld
        cases res with
        | ok s =>
          dsimp only
          exact StepOK_pure st _ hld.1 hld.2
            (by intro v hv; injection hv with hv; subst hv; rfl)
        | error e =>
          dsimp only
          exact StepOK_pure st _ hld.1 hld.2 (by intro v hv; simp at hv)
  | lorem mn mx unit =>
    unfold instantiate
    dsimp only
    rcases hrs : loremIpsum mn mx unit st with ⟨res, st'⟩
    have hld := loremIpsum_ledger mn mx unit st
    rw [hrs] at hld
    cases res with
    | ok s =>
      dsimp only
      exact StepOK_pure st _ hld.1 hld.2 (by intro v hv; injection hv with hv; subst hv; rfl)
    | error e =>
      dsimp only
      exact StepOK_pure st _ hld.1 hld.2 (by intro v hv; simp at hv)
  | book mn mx path =>
    unfold instantiate
    dsimp only
    rcases hrs : bookGo cfg.fs mn mx path st with ⟨res, st'⟩
    have hld := bookGo_ledger cfg.fs mn mx path st
    rw [hrs] at hld
    cases res with
    | ok s =>
      dsimp only
      exact StepOK_pure st _ hld.1 hld.2 (by intro v hv; injection hv with hv; subst hv; rfl)
    | error e =>
      dsimp only
      exact StepOK_pure st _ hld.1 hld.2 (by intro v hv; simp at hv)
  | id ns =>
    unfold instantiate
    dsimp only
    rcases hid : generateID ns st with ⟨res, st'⟩
    have hok := generateID_ok ns st
    rw [hid] at hok
    cases res with
    | ok s =>
      dsimp only
      exact ⟨hok.1, hok.2, by intro _ v hv; injection hv with hv; subst hv; simp [refIds]⟩
    | error e =>
      dsimp only
      exact ⟨hok.1, hok.2, by intro _ v hv; simp at hv⟩
  | ref ns => exact generateReference_ok ns st
  | number mn mx =>
    unfold instantiate
    dsimp only
    exact StepOK_pure st _ rfl rfl (by intro v hv; injection hv with hv; subst hv; rfl)
  | datetime mn mx =>
    unfold instantiate
    dsimp only
    cases mn <;> cases mx <;>
      exact StepOK_pure st _ rfl rfl (by intro v hv; injection hv with hv; subst hv; rfl)

/-- One `generateNode` step — snapshot, dispatch, rollback on
abandon — satisfies the step contract. -/
theorem genStep_ok {cfg : GenCfg} {child itemChild : GenFun} (hc : GenOK child)
    (hi : GenOK itemChild) : GenOK (genStep cfg child itemChild) := by
  intro ty lim st
  unfold genStep
  dsimp only
  rcases halk : alookup cfg.Template.Types ty with _ | node
  · dsimp only
    exact ⟨StLe.refl st, fun h => h, by intro _ v hv; simp at hv⟩
  · dsimp only
    rcases hins : instantiate child itemChild cfg node lim st with ⟨res, st'⟩
    have hstep := instantiate_ok hc hi cfg node lim st
    rw [hins] at hstep
    cases res with
    | error e =>
      dsimp only
      by_cases hab : e.isAbandoned = true
      · rw [if_pos hab]
        exact ⟨StLe_restore hstep.1, fun h => StInv_restore h hstep.1,
          by intro _ v hv; simp at hv⟩
      · rw [if_neg hab]
        exact ⟨hstep.1, hstep.2.1, by intro _ v hv; simp at hv⟩
    | ok v =>
      dsimp only
      exact hstep

/-- `generateNode` satisfies the step contract at every depth. -/
theorem gen_ok (cfg : GenCfg) : ∀ k, GenOK (gen cfg k) := by
  intro k
  induction k using Nat.strong_induction_on with
  | _ k ih =>
    rcases k with _ | _ | k
    · intro ty lim st
      exact ⟨StLe.refl st, fun h => h, by intro _ v hv; simp [gen] at hv⟩
    · rw [show gen cfg 1 = genStep cfg (gen cfg 0) (gen cfg 0) from rfl]
      exact genStep_ok (ih 0 (by omega)) (ih 0 (by omega))
    · rw [gen_add_two]
      exact genStep_ok (ih (k + 1) (by omega)) (ih k (by omega))

/-- The empty initial ledger satisfies the invariant. -/
theorem StInv_initState (r : Rng) : StInv (initState r) := by
  refine ⟨?_, ?_, ?_, ?_⟩
  · intro ns i hi
    simp [nsEntry, initState, alookup] at hi
  · intro ns ns' i hi
    simp [nsEntry, initState, alookup] at hi
  · intro ns
    simp [nsEntry, initState, alookup]
  · simp [initState]

/-! ## C3 — the fixup-side contract -/

/-- The modelled `rand.Perm`: no duplicates, full length, in-range. -/
theorem permGo_spec (r : Rng) (n : Nat) :
    (permGo r n).1.Nodup ∧ (permGo r n).1.length = n ∧ ∀ j ∈ (permGo r n).1, j < n := by
  unfold permGo
  dsimp only [Rng.next]
  set k := r.stream r.pos % max 1 n with hk
  have hkle : k ≤ n := by
    rcases Nat.eq_zero_or_pos n with h0 | hpos
    · subst h0
      simp [hk, Nat.mod_one]
    · have : k < max 1 n := Nat.mod_lt _ (by omega)
      omega
  have hrot : (List.range n).drop k ++ (List.range n).take k = (List.range n).rotate k := by
    rw [List.rotate_eq_drop_append_take (by simpa using hkle)]
  refine ⟨?_, ?_, ?_⟩
  · rw [hrot]
    exact ((List.rotate_perm (List.range n) k).nodup_iff).mpr (List.nodup_range n)
  · simp only [List.length_append, List.length_drop, List.length_take, List.length_range]
    omega
  · intro j hj
    rcases List.mem_append.mp hj with hj | hj
    · exact List.mem_range.mp (List.mem_of_mem_drop hj)
    · exact List.mem_range.mp (List.mem_of_mem_take hj)

/-- `chooseK` picks `k` elements at pairwise-distinct in-range
positions of the pool (the values at those positions need not be
distinct). -/
theorem chooseKGo_spec (r : Rng) (k : Nat) (choices : List String)
    (hk : k ≤ choices.length) :
    ∃ idxs : List Nat, idxs.Nodup ∧ idxs.length = k ∧
      (∀ j ∈ idxs, j < choices.length) ∧
      (chooseKGo r k choices).1 = idxs.map (fun i => choices.getD i "") := by
  obtain ⟨hnd, hlen, hmem⟩ := permGo_spec r choices.length
  refine ⟨(permGo r choices.length).1.take k, ?_, ?_, ?_, rfl⟩
  · exact hnd.sublist (List.take_sublist _ _)
  · rw [List.length_take, hlen]
    omega
  · intro j hj
    exact hmem j (List.mem_of_mem_take hj)

/-- Appending one binding to a table: earlier bindings shadow it. -/
theorem tlookup_append (t : List (Nat × α)) (i : Nat) (v : α) (k : Nat) :
    tlookup (t ++ [(i, v)]) k =
      match tlookup t k with
      | some w => some w
      | none => if i = k then some v else none := by
  induction t with
  | nil => simp [tlookup]
  | cons p rest ih =>
    obtain ⟨k', w⟩ := p
    by_cases h : k' = k
    · simp [tlookup, h]
    · simp only [List.cons_append, tlookup, if_neg h]
      exact ih

/-- With duplicate-free keys, membership determines the lookup. -/
theorem alookup_of_mem_nodup {l : List (String × α)}
    (hnd : (l.map Prod.fst).Nodup) {p : String × α} (hp : p ∈ l) :
    alookup l p.1 = some p.2 := by
  induction l with
  | nil => simp at hp
  | cons q rest ih =>
    obtain ⟨k₀, v₀⟩ := q
    simp only [List.map_cons, List.nodup_cons] at hnd
    rcases List.mem_cons.mp hp with h | h
    · subst h
      simp [alookup]
    · have hne : k₀ ≠ p.1 := by
        intro he
        exact hnd.1 (he ▸ (List.mem_map.mpr ⟨p, h, rfl⟩))
      simp only [alookup, if_neg hne]
      exact ih hnd.2 h

/-- A successful lookup is a membership. -/
theorem alookup_mem {l : List (String × α)} {k : String} {v : α}
    (h : alookup l k = some v) : (k, v) ∈ l := by
  induction l with
  | nil => simp [alookup] at h
  | cons q rest ih =>
    obtain ⟨k₀, v₀⟩ := q
    by_cases h0 : k₀ = k
    · subst h0
      simp only [alookup, if_pos rfl] at h
      injection h with h
      subst h
      exact List.mem_cons_self _ _
    · simp only [alookup, if_neg h0] at h
      exact List.mem_cons_of_mem _ (ih h)


/-- The per-namespace placeholder loop of `fixupReferences`: existing
table entries are kept, untouched ids stay absent, and every processed
placeholder gets a `valsOK` entry. -/
theorem fixupRefs_spec (cells : List RefCell) (values : List String) :
    ∀ (refs : List Nat) (table : List (Nat × List String)) (r : Rng),
      (∀ i ∈ refs, cellBoundsOK cells values i) →
      refs.Nodup →
      (∀ i ∈ refs, tlookup table i = none) →
      (∀ k v, tlookup table k = some v →
        tlookup (fixupRefs cells values refs table r).1 k = some v) ∧
      (∀ k, tlookup table k = none → k ∉ refs →
        tlookup (fixupRefs cells values refs table r).1 k = none) ∧
      (∀ i ∈ refs, ∃ vals,
        tlookup (fixupRefs cells values refs table r).1 i = some vals ∧
        valsOK cells values i vals) := by
  intro refs
  induction refs with
  | nil =>
    intro table r _ _ _
    refine ⟨?_, ?_, ?_⟩
    · intro k v h
      simpa [fixupRefs] using h
    · intro k h _
      simpa [fixupRefs] using h
    · intro i hi
      simp at hi
  | cons i rest ih =>
    intro table r hb hnd hfresh
    have hndi : i ∉ rest := (List.nodup_cons.mp hnd).1
    have hndr : rest.Nodup := (List.nodup_cons.mp hnd).2
    have key : ∀ (vals : List String) (r' : Rng), valsOK cells values i vals →
        (∀ k v, tlookup table k = some v →
          tlookup (fixupRefs cells values rest (table ++ [(i, vals)]) r').1 k = some v) ∧
        (∀ k, tlookup table k = none → k ∉ i :: rest →
          tlookup (fixupRefs cells values rest (table ++ [(i, vals)]) r').1 k = none) ∧
        (∀ j ∈ i :: rest, ∃ vals',
          tlookup (fixupRefs cells values rest (table ++ [(i, vals)]) r').1 j = some vals' ∧
          valsOK cells values j vals') := by
      intro vals r' hv
      have hfresh' : ∀ j ∈ rest, tlookup (table ++ [(i, vals)]) j = none := by
        intro j hj
        rw [tlookup_append, hfresh j (List.mem_cons_of_mem _ hj),
          if_neg (by intro he; subst he; exact hndi hj)]
      obtain ⟨istab, inone, ivals⟩ := ih (table ++ [(i, vals)]) r'
        (fun j hj => hb j (List.mem_cons_of_mem _ hj)) hndr hfresh'
      refine ⟨?_, ?_, ?_⟩
      · intro k v h
        refine istab k v ?_
        rw [tlookup_append, h]
      · intro k h hk
        refine inone k ?_ (fun hm => hk (List.mem_cons_of_mem _ hm))
        rw [tlookup_append, h, if_neg (by intro he; subst he; exact hk (List.mem_cons_self _ _))]
      · intro j hj
        rcases List.mem_cons.mp hj with hj | hj
        · subst hj
          refine ⟨vals, istab j vals ?_, hv⟩
          rw [tlookup_append, hfresh j (List.mem_cons_self _ _), if_pos rfl]
        · exact ivals j hj
    simp only [fixupRefs]
    by_cases hlt : (cells.getD i ⟨"", 0⟩).Length < 0
    · rw [if_pos hlt]
      rw [show chooseGo r values = ((chooseGo r values).1, (chooseGo r values).2) from rfl]
      dsimp only
      refine key [(chooseGo r values).1] (chooseGo r values).2 ⟨?_, ?_, ?_, ?_⟩
      · intro v hv
        rw [List.mem_singleton] at hv
        subst hv
        have hlen : 0 < values.length := (hb i (List.mem_cons_self _ _)).1 hlt
        unfold chooseGo
        dsimp only [Rng.next]
        rw [List.getD_eq_getElem]
        exact List.getElem_mem (Nat.mod_lt _ hlen)
      · intro _
        rfl
      · intro h0
        omega
      · intro h0
        omega
    · rw [if_neg hlt]
      by_cases heq : (cells.getD i ⟨"", 0⟩).Length = 0
      · rw [if_pos heq]
        refine key [] r ⟨by simp, by intro h; omega, fun _ => rfl, by intro h; omega⟩
      · rw [if_neg heq]
        have hkle : (cells.getD i ⟨"", 0⟩).Length.toNat ≤ values.length := by
          have := (hb i (List.mem_cons_self _ _)).2 (by omega)
          omega
        obtain ⟨idxs, hind, hilen, himem, hival⟩ :=
          chooseKGo_spec r (cells.getD i ⟨"", 0⟩).Length.toNat values hkle
        rw [show chooseKGo r (cells.getD i ⟨"", 0⟩).Length.toNat values
          = ((chooseKGo r (cells.getD i ⟨"", 0⟩).Length.toNat values).1,
             (chooseKGo r (cells.getD i ⟨"", 0⟩).Length.toNat values).2) from rfl]
        dsimp only
        refine key _ _ ⟨?_, by intro h; omega, by intro h; omega, ?_⟩
        · intro v hv
          rw [hival] at hv
          obtain ⟨j, hj, rfl⟩ := List.mem_map.mp hv
          rw [List.getD_eq_getElem]
          exact List.getElem_mem (himem j hj)
        · intro _
          exact ⟨idxs, hind, hilen, himem, hival⟩

/-- The namespace loop of `fixupReferences`: a successful pass gives
every registered placeholder a `valsOK` entry against its namespace's
value pool. -/
theorem fixupLoop_spec (cells : List RefCell) :
    ∀ (nss : List (String × NameSpace)) (table : List (Nat × List String)) (r : Rng)
      (table' : List (Nat × List String)) (r' : Rng),
      fixupLoop cells nss table r = (.ok table', r') →
      (∀ p ∈ nss, ∀ i ∈ p.2.Refs, cellBoundsOK cells p.2.Values i) →
      (∀ p ∈ nss, p.2.Refs.Nodup) →
      (∀ p ∈ nss, ∀ i ∈ p.2.Refs, tlookup table i = none) →
      List.Pairwise (fun p q : String × NameSpace =>
        ∀ i, i ∈ p.2.Refs → i ∉ q.2.Refs) nss →
      (∀ k v, tlookup table k = some v → tlookup table' k = some v) ∧
      (∀ p ∈ nss, ∀ i ∈ p.2.Refs, ∃ vals, tlookup table' i = some vals ∧
        valsOK cells p.2.Values i vals) := by
  intro nss
  induction nss with
  | nil =>
    intro table r table' r' heq _ _ _ _
    simp only [fixupLoop] at heq
    injection heq with h1 h2
    injection h1 with h1
    subst h1
    refine ⟨fun k v h => h, ?_⟩
    intro p hp
    simp at hp
  | cons p rest ih =>
    obtain ⟨name, nsp⟩ := p
    intro table r table' r' heq hb hnd hfresh hpair
    simp only [fixupLoop] at heq
    by_cases hguard : nsp.Values.length = 0 ∧ nsp.Refs.length > 0
    · rw [if_pos hguard] at heq
      exact absurd heq (by simp)
    · rw [if_neg hguard] at heq
      rw [show fixupRefs cells nsp.Values nsp.Refs table r
          = ((fixupRefs cells nsp.Values nsp.Refs table r).1,
             (fixupRefs cells nsp.Values nsp.Refs table r).2) from rfl] at heq
      dsimp only at heq
      obtain ⟨hpr, hprest⟩ := List.pairwise_cons.mp hpair
      obtain ⟨fstab, fnone, fvals⟩ := fixupRefs_spec cells nsp.Values nsp.Refs table r
        (hb _ (List.mem_cons_self _ _)) (hnd _ (List.mem_cons_self _ _))
        (hfresh _ (List.mem_cons_self _ _))
      have hfresh' : ∀ q ∈ rest, ∀ i ∈ q.2.Refs,
          tlookup (fixupRefs cells nsp.Values nsp.Refs table r).1 i = none := by
        intro q hq i hi
        refine fnone i (hfresh q (List.mem_cons_of_mem _ hq) i hi) ?_
        intro hmem
        exact hpr q hq i hmem hi
      obtain ⟨istab, ivals⟩ := ih _ _ table' r' heq
        (fun q hq => hb q (List.mem_cons_of_mem _ hq))
        (fun q hq => hnd q (List.mem_cons_of_mem _ hq)) hfresh' hprest
      refine ⟨fun k v hv => istab k v (fstab k v hv), ?_⟩
      intro q hq i hi
      rcases List.mem_cons.mp hq with hq | hq
      · subst hq
        obtain ⟨vals, hv, hok⟩ := fvals i hi
        exact ⟨vals, istab i vals hv, hok⟩
      · exact ivals q hq i hi

/-- C3 (amended): in every successful `Generate` run, each reference
placeholder of the generated tree is registered in a namespace of the
final generation ledger and resolves against that namespace's value
pool: every resolved value is one of the namespace's identifier
values; an arity-`0` placeholder resolves to the empty collection; an
arity-`n` placeholder (`n ≥ 1`) resolves to exactly `n` values drawn
at pairwise-distinct positions of the pool.  (The original claim's
"`n` pairwise-distinct values" is too strong: the positions are
distinct, the values at those positions need not be — see
`C3_counterexample`.) -/
theorem C3_reference_resolution (cfg : GenCfg) (r : Rng) (doc : Value) (stF : GenState)
    (hord : ∀ l, (cfg.mapOrder l).Perm l)
    (hgen : Generate cfg r = (.ok doc, stF)) :
    ∃ doc₀ stG table,
      generateNode cfg cfg.Template.Root (some (arrayLimits cfg.Limits)) 25
        (initState r) = (.ok doc₀, stG) ∧
      fixupReferences cfg.mapOrder stG = (.ok table, stF) ∧
      doc = resolveValue stF.refCells table doc₀ ∧
      ∀ i ∈ refIds doc₀, ∃ ns c vals,
        registeredIn stG i ns ∧
        stG.refCells[i]? = some c ∧ c.Namespace = ns ∧
        tlookup table i = some vals ∧
        (∀ v ∈ vals, v ∈ (nsEntry stG ns).Values) ∧
        (c.Length < 0 → vals.length = 1) ∧
        (c.Length = 0 → vals = []) ∧
        (0 < c.Length → vals.length = c.Length.toNat ∧
          ∃ idxs : List Nat, idxs.Nodup ∧
            (∀ j ∈ idxs, j < (nsEntry stG ns).Values.length) ∧
            vals = idxs.map (fun j => (nsEntry stG ns).Values.getD j "")) := by
  unfold Generate at hgen
  dsimp only at hgen
  rcases hgn : generateNode cfg cfg.Template.Root (some (arrayLimits cfg.Limits)) 25
      (initState r) with ⟨gres, stG⟩
  rw [hgn] at hgen
  cases gres with
  | error e => simp at hgen
  | ok doc₀ =>
    dsimp only at hgen
    rcases hfx : fixupReferences cfg.mapOrder stG with ⟨fres, stF'⟩
    rw [hfx] at hgen
    cases fres with
    | error e => simp at hgen
    | ok table =>
      dsimp only at hgen
      injection hgen with h1 h2
      injection h1 with h1
      subst h2
      refine ⟨doc₀, stG, table, rfl, hfx, h1.symm, ?_⟩
      -- the generation-side contract
      have hstep := gen_ok cfg 25 cfg.Template.Root (some (arrayLimits cfg.Limits))
        (initState r)
      rw [show gen cfg 25 cfg.Template.Root (some (arrayLimits cfg.Limits)) (initState r)
          = generateNode cfg cfg.Template.Root (some (arrayLimits cfg.Limits)) 25
            (initState r) from rfl, hgn] at hstep
      have hinvG : StInv stG := hstep.2.1 (StInv_initState r)
      have hregG := hstep.2.2 (StInv_initState r) doc₀ rfl
      -- the fixup-side spec
      unfold fixupReferences at hfx
      rcases hfl : fixupLoop stG.refCells (cfg.mapOrder stG.nameSpaces) [] stG.rng
        with ⟨flres, r₂⟩
      rw [hfl] at hfx
      cases flres with
      | error e => simp at hfx
      | ok table₂ =>
        dsimp only at hfx
        injection hfx with hfx1 hfx2
        injection hfx1 with hfx1
        subst hfx1
        have hperm : List.Pairwise (fun p q : String × NameSpace =>
            ∀ i, i ∈ p.2.Refs → i ∉ q.2.Refs) stG.nameSpaces := by
          have hnames : List.Pairwise (fun p q : String × NameSpace => p.1 ≠ q.1)
              stG.nameSpaces := (List.pairwise_map.mp hinvG.keys)
          refine hnames.imp_of_mem ?_
          intro p q hp hq hne i hip hiq
          refine hne ?_
          refine hinvG.uniq p.1 q.1 i ?_ ?_
          · unfold nsEntry
            rw [alookup_of_mem_nodup hinvG.keys hp]
            exact hip
          · unfold nsEntry
            rw [alookup_of_mem_nodup hinvG.keys hq]
            exact hiq
        have hbounds : ∀ p ∈ stG.nameSpaces, ∀ i ∈ p.2.Refs,
            cellBoundsOK stG.refCells p.2.Values i := by
          intro p hp i hi
          have hent : nsEntry stG p.1 = p.2 := by
            unfold nsEntry
            rw [alookup_of_mem_nodup hinvG.keys hp]
            rfl
          obtain ⟨c, hc, hcns, hneg, hpos⟩ := hinvG.cells p.1 i (hent ▸ hi)
          have hgd : stG.refCells.getD i ⟨"", 0⟩ = c := by
            rw [List.getD_eq_getElem?_getD, hc]
            rfl
          constructor
          · intro hlt
            rw [hgd] at hlt
            have := hneg hlt
            rw [hent] at this
            omega
          · intro hge
            rw [hgd] at hge ⊢
            have := hpos hge
            rw [hent] at this
            exact this
        have hnodups : ∀ p ∈ stG.nameSpaces, p.2.Refs.Nodup := by
          intro p hp
          have hent : nsEntry stG p.1 = p.2 := by
            unfold nsEntry
            rw [alookup_of_mem_nodup hinvG.keys hp]
            rfl
          exact hent ▸ hinvG.nodup p.1
        have hmemO : ∀ p : String × NameSpace,
            p ∈ cfg.mapOrder stG.nameSpaces ↔ p ∈ stG.nameSpaces :=
          fun p => (hord stG.nameSpaces).mem_iff
        obtain ⟨_, hvals⟩ := fixupLoop_spec stG.refCells (cfg.mapOrder stG.nameSpaces)
          [] stG.rng table₂ r₂ hfl
          (fun p hp => hbounds p ((hmemO p).mp hp))
          (fun p hp => hnodups p ((hmemO p).mp hp))
          (by intro p _ i _; rfl)
          (((hord stG.nameSpaces).pairwise_iff
            (by intro p q h i hip hiq; exact h i hiq hip)).mpr hperm)
        intro i hi
        obtain ⟨ns, hreg⟩ := hregG i hi
        rcases halk : alookup stG.nameSpaces ns with _ | e
        · exfalso
          have : nsEntry stG ns = ⟨[], []⟩ := by
            unfold nsEntry
            rw [halk]
            rfl
          rw [registeredIn, this] at hreg
          simp at hreg
        · have hent : nsEntry stG ns = e := by
            unfold nsEntry
            rw [halk]
            rfl
          have hmem : (ns, e) ∈ cfg.mapOrder stG.nameSpaces :=
            (hmemO (ns, e)).mpr (alookup_mem halk)
          have hie : i ∈ e.Refs := by
            rw [registeredIn, hent] at hreg
            exact hreg
          obtain ⟨vals, hvt, hok⟩ := hvals (ns, e) hmem i hie
          obtain ⟨c, hc, hcns, _, _⟩ := hinvG.cells ns i hreg
          have hgd : stG.refCells.getD i ⟨"", 0⟩ = c := by
            rw [List.getD_eq_getElem?_getD, hc]
            rfl
          obtain ⟨hmemv, hlen1, hlen0, hlenpos⟩ := hok
          rw [hgd] at hlen1 hlen0 hlenpos
          refine ⟨ns, c, vals, hreg, hc, hcns, hvt, ?_, hlen1, hlen0, ?_⟩
          · intro v hv
            rw [hent]
            exact hmemv v hv
          · intro hpos
            obtain ⟨idxs, hnd, hlen, hmemi, hval⟩ := hlenpos hpos
            refine ⟨?_, idxs, hnd, ?_, ?_⟩
            · rw [hval, List.length_map, hlen]
            · intro j hj
              rw [hent]
              exact hmemi j hj
            · rw [hent]
              exact hval


set_option maxHeartbeats 4000000 in
/-- C3 counterexample: a concrete run whose only reference cell has
arity `2` (the aggregate placeholder of the `rs` array) yet resolves
to the collection `["a", "a"]` — two equal values, because the two
generated identifiers collided.  Arity-`n` references resolve to `n`
values at distinct pool positions, not to `n` pairwise-distinct
values. -/
theorem C3_counterexample :
    (Generate (mkCfg tmplC3) ⟨streamC3, 0⟩).1
      = .ok (.obj [("xs", .arr [.str "a", .str "a"]),
                   ("rs", .arr [.str "a", .str "a"])]) ∧
    (Generate (mkCfg tmplC3) ⟨streamC3, 0⟩).2.refCells = [⟨"g", 2⟩] ∧
    ¬ ([Value.str "a", Value.str "a"].Pairwise (· ≠ ·)) :=
  ⟨rfl, rfl, fun h => (List.pairwise_cons.mp h).1 _ (List.mem_cons_self _ _) rfl⟩

set_option maxHeartbeats 4000000 in
/-- Witness for C3: the amended theorem applied to a concrete
successful run. -/
theorem C3_witness :
    ∃ doc stF,
      Generate (mkCfg tmplC3) ⟨streamC3, 0⟩ = (.ok doc, stF) ∧
      ∃ doc₀ stG table,
        generateNode (mkCfg tmplC3) (mkCfg tmplC3).Template.Root
            (some (arrayLimits (mkCfg tmplC3).Limits)) 25 (initState ⟨streamC3, 0⟩)
          = (.ok doc₀, stG) ∧
        fixupReferences (mkCfg tmplC3).mapOrder stG = (.ok table, stF) ∧
        doc = resolveValue stF.refCells table doc₀ ∧
        ∀ i ∈ refIds doc₀, ∃ ns c vals,
          registeredIn stG i ns ∧
          stG.refCells[i]? = some c ∧ c.Namespace = ns ∧
          tlookup table i = some vals ∧
          (∀ v ∈ vals, v ∈ (nsEntry stG ns).Values) ∧
          (c.Length < 0 → vals.length = 1) ∧
          (c.Length = 0 → vals = []) ∧
          (0 < c.Length → vals.length = c.Length.toNat ∧
            ∃ idxs : List Nat, idxs.Nodup ∧
              (∀ j ∈ idxs, j < (nsEntry stG ns).Values.length) ∧
              vals = idxs.map (fun j => (nsEntry stG ns).Values.getD j "")) :=
  ⟨_, _, rfl, C3_reference_resolution (mkCfg tmplC3) ⟨streamC3, 0⟩ _ _
    (fun l => List.Perm.refl l) rfl⟩

end Fakedoc
